import Mathlib

/-!
Verification of the Hekayaty platform edge-function utilities and handlers.

The TypeScript sources under `supabase/functions/` are shallowly embedded:
strings become `List Char`, the hard-coded regular expressions of
`_shared/utils.ts` become executable Lean predicates over `List Char`
(each doc comment records the regex and how it unfolds to the predicate),
stateful handlers become pure functions over explicit request/database
records, and JavaScript exceptions become `Except`.
-/

set_option autoImplicit false

namespace Hekayaty

/-! ### Character classes (JavaScript semantics, no `u` flag) -/

/-- JS `\w` without the `u` flag: `[A-Za-z0-9_]` (code points 97-122,
65-90, 48-57, 95). -/
def isWordChar (c : Char) : Bool :=
  (97 ≤ c.toNat && c.toNat ≤ 122) || (65 ≤ c.toNat && c.toNat ≤ 90) ||
  (48 ≤ c.toNat && c.toNat ≤ 57) || c.toNat == 95

/-- ASCII lowercase letter, JS `[a-z]`. -/
def isLowerA (c : Char) : Bool := 97 ≤ c.toNat && c.toNat ≤ 122

/-- ASCII uppercase letter, JS `[A-Z]`. -/
def isUpperA (c : Char) : Bool := 65 ≤ c.toNat && c.toNat ≤ 90

/-- ASCII digit, JS `\d` without the `u` flag. -/
def isDigitA (c : Char) : Bool := 48 ≤ c.toNat && c.toNat ≤ 57

/-- The password special characters of `validatePassword`: `[@$!%*?&]`. -/
def isPwSpecial (c : Char) : Bool :=
  c = '@' || c = '$' || c = '!' || c = '%' || c = '*' || c = '?' || c = '&'

/-- The code points matched by JS `\s` (which for this code base coincides
with the set stripped by `String.prototype.trim`): ASCII whitespace, NBSP,
Ogham space mark, the Unicode space range, line/paragraph separator,
narrow no-break space, math space, ideographic space and the BOM. -/
def jsWsCodes : List Nat :=
  [9, 10, 11, 12, 13, 32, 160, 5760,
   8192, 8193, 8194, 8195, 8196, 8197, 8198, 8199, 8200, 8201, 8202,
   8232, 8233, 8239, 8287, 12288, 65279]

/-- JS `\s` / `trim` whitespace test. -/
def isJsWs (c : Char) : Bool := jsWsCodes.contains c.toNat

/-- JS line terminators, the characters that `.` does NOT match without the
`s` flag: LF, CR, LS, PS. -/
def isLineTerm (c : Char) : Bool :=
  c.toNat == 10 || c.toNat == 13 || c.toNat == 8232 || c.toNat == 8233

/-- Lowercase an ASCII uppercase code point, identity elsewhere. -/
def lowerN (n : Nat) : Nat := if 65 ≤ n ∧ n ≤ 90 then n + 32 else n

/-- Case-insensitive character comparison for ASCII patterns (`i` flag):
JS canonicalisation maps an ASCII letter to its other case and leaves
every other character alone (non-ASCII letters are not canonicalised to
ASCII in non-unicode mode). -/
def eqCI (c k : Char) : Bool := lowerN c.toNat == lowerN k.toNat

theorem eqCI_refl (c : Char) : eqCI c c = true := by
  simp [eqCI]

theorem isJsWs_not_word {c : Char} (h : isJsWs c = true) :
    isWordChar c = false := by
  simp only [isJsWs, jsWsCodes, List.contains, List.elem_eq_mem, List.mem_cons,
    decide_eq_true_eq, List.not_mem_nil, or_false] at h
  simp only [isWordChar, Bool.or_eq_false_iff, Bool.and_eq_false_iff,
    decide_eq_false_iff_not, not_le, beq_eq_false_iff_ne, ne_eq]
  omega

theorem eqCI_upper_word {c k : Char} (hk : isUpperA k = true)
    (hck : eqCI c k = true) : isWordChar c = true := by
  simp only [isUpperA, Bool.and_eq_true, decide_eq_true_eq] at hk
  simp only [eqCI, lowerN, beq_iff_eq] at hck
  simp only [isWordChar, Bool.or_eq_true, Bool.and_eq_true, decide_eq_true_eq,
    beq_iff_eq]
  split_ifs at hck <;> omega

/-! ### `validatePassword` (`_shared/utils.ts` lines 53-80)

```
if (password.length < 8) errors.push('Password must be at least 8 characters long')
if (!/[a-z]/.test(password)) errors.push(...)
if (!/[A-Z]/.test(password)) errors.push(...)
if (!/\d/.test(password)) errors.push(...)
if (!/[@$!%*?&]/.test(password)) errors.push(...)
return { valid: errors.length === 0, errors }
```
A single-character-class regex `.test` is `List.any`. -/

structure PwResult where
  valid : Bool
  errors : List String
  deriving Repr, DecidableEq

def pwMsgLen : String := "Password must be at least 8 characters long"
def pwMsgLower : String := "Password must contain at least one lowercase letter"
def pwMsgUpper : String := "Password must contain at least one uppercase letter"
def pwMsgDigit : String := "Password must contain at least one number"
def pwMsgSpecial : String := "Password must contain at least one special character (@$!%*?&)"

def validatePassword (p : List Char) : PwResult :=
  let errors : List String :=
    (if p.length < 8 then [pwMsgLen] else []) ++
    (if ¬ (p.any isLowerA) then [pwMsgLower] else []) ++
    (if ¬ (p.any isUpperA) then [pwMsgUpper] else []) ++
    (if ¬ (p.any isDigitA) then [pwMsgDigit] else []) ++
    (if ¬ (p.any isPwSpecial) then [pwMsgSpecial] else [])
  { valid := errors.length == 0, errors := errors }

/-- C1: `validatePassword p` is valid iff `p` has length at least 8 and
contains an ASCII lowercase letter, an ASCII uppercase letter, a digit and
one of `@$!%*?&`; when invalid, `errors` holds exactly one message per
violated rule (one copy of each applicable message and nothing else). -/
theorem C1_validatePassword (p : List Char) :
    ((validatePassword p).valid = true ↔
      (8 ≤ p.length ∧ p.any isLowerA = true ∧ p.any isUpperA = true ∧
        p.any isDigitA = true ∧ p.any isPwSpecial = true)) ∧
    (validatePassword p).errors.count pwMsgLen = (if p.length < 8 then 1 else 0) ∧
    (validatePassword p).errors.count pwMsgLower = (if p.any isLowerA then 0 else 1) ∧
    (validatePassword p).errors.count pwMsgUpper = (if p.any isUpperA then 0 else 1) ∧
    (validatePassword p).errors.count pwMsgDigit = (if p.any isDigitA then 0 else 1) ∧
    (validatePassword p).errors.count pwMsgSpecial = (if p.any isPwSpecial then 0 else 1) ∧
    (validatePassword p).errors.length =
      (if p.length < 8 then 1 else 0) + (if p.any isLowerA then 0 else 1) +
      (if p.any isUpperA then 0 else 1) + (if p.any isDigitA then 0 else 1) +
      (if p.any isPwSpecial then 0 else 1) := by
  unfold validatePassword
  split_ifs with h1 h2 h3 h4 h5 <;>
    simp_all [List.count_append, List.count_cons, List.count_nil,
      pwMsgLen, pwMsgLower, pwMsgUpper, pwMsgDigit, pwMsgSpecial]

/-! ### Generic substring machinery for the regex embeddings -/

/-- Strip a case-insensitive pattern prefix, returning the remainder. -/
def stripCI : List Char → List Char → Option (List Char)
  | [], l => some l
  | _ :: _, [] => none
  | k :: ks, c :: cs => if eqCI c k then stripCI ks cs else none

/-- The pattern occurs (case-insensitively) as a prefix at index `i`. -/
def substrAtCI (pat l : List Char) (i : Nat) : Bool :=
  (stripCI pat (l.drop i)).isSome

/-- The pattern occurs (case-insensitively) somewhere in `l`. -/
def containsCI (pat : List Char) : List Char → Bool
  | [] => (stripCI pat []).isSome
  | c :: cs => (stripCI pat (c :: cs)).isSome || containsCI pat cs

theorem stripCI_of_forall₂ {pat m rest : List Char}
    (h : List.Forall₂ (fun c k => eqCI c k = true) m pat) :
    stripCI pat (m ++ rest) = some rest := by
  induction h with
  | nil => rfl
  | cons hck _ ih => simp [stripCI, hck, ih]

theorem stripCI_self_append (pat rest : List Char) :
    stripCI pat (pat ++ rest) = some rest :=
  stripCI_of_forall₂ (List.forall₂_same.mpr (fun c _ => eqCI_refl c))

theorem stripCI_some {pat l rest : List Char} (h : stripCI pat l = some rest) :
    ∃ m, l = m ++ rest ∧ List.Forall₂ (fun c k => eqCI c k = true) m pat := by
  induction pat generalizing l with
  | nil =>
    simp [stripCI] at h
    exact ⟨[], by simp [h]⟩
  | cons k ks ih =>
    match l with
    | [] => simp [stripCI] at h
    | c :: cs =>
      simp only [stripCI] at h
      by_cases hck : eqCI c k = true
      · simp [hck] at h
        obtain ⟨m, hm, hf⟩ := ih h
        exact ⟨c :: m, by simp [hm], List.Forall₂.cons hck hf⟩
      · simp [hck] at h

theorem containsCI_of_strip {pat pre rest : List Char}
    (h : (stripCI pat rest).isSome = true) :
    containsCI pat (pre ++ rest) = true := by
  induction pre with
  | nil =>
    cases rest with
    | nil => simpa [containsCI] using h
    | cons c cs => simp [containsCI, h]
  | cons c cs ih => simp [containsCI, ih]

theorem substrAtCI_append (pat pre rest : List Char) :
    substrAtCI pat (pre ++ rest) pre.length = (stripCI pat rest).isSome := by
  simp [substrAtCI, List.drop_left]

theorem any_range_of_holds {n i : Nat} {f : Nat → Bool}
    (hi : i < n) (h : f i = true) : (List.range n).any f = true := by
  exact List.any_eq_true.mpr ⟨i, List.mem_range.mpr hi, h⟩

/-! ### `validateEmail` (`_shared/utils.ts` lines 48-51)

The anchored regex `^[^\s@]+@[^\s@]+\.[^\s@]+$` matches `l` iff `l`
decomposes as `A ++ '@' :: B ++ '.' :: C` with `A`, `B`, `C` nonempty and
free of `\s` and `'@'` — the embedding searches the positions `i` of the
`'@'` and `j` of the `'.'` of such a decomposition. -/

/-- A character admissible in the classes `[^\s@]` of the email regex. -/
def emailCharOk (c : Char) : Bool := !(isJsWs c) && !(c == '@')

def validateEmail (l : List Char) : Bool :=
  (List.range l.length).any fun i =>
    (List.range l.length).any fun j =>
      decide (1 ≤ i ∧ i + 2 ≤ j ∧ j + 2 ≤ l.length ∧
        l[i]? = some '@' ∧ l[j]? = some '.' ∧
        (l.take i).all emailCharOk = true ∧
        ((l.drop (i+1)).take (j - (i+1))).all emailCharOk = true ∧
        (l.drop (j+1)).all emailCharOk = true)

theorem split_two_getElem {α : Type} {l : List α} {i j : Nat} {a b : α}
    (hij : i < j) (ha : l[i]? = some a) (hb : l[j]? = some b) :
    l = l.take i ++ a :: ((l.drop (i+1)).take (j - (i+1)) ++ b :: l.drop (j+1)) := by
  have hi : i < l.length := (List.getElem?_eq_some.mp ha).1
  have hj : j < l.length := (List.getElem?_eq_some.mp hb).1
  have hdi : l.drop i = a :: l.drop (i+1) := by
    rw [List.drop_eq_getElem_cons hi]
    obtain ⟨_, h⟩ := List.getElem?_eq_some.mp ha
    rw [h]
  have hdj : l.drop j = b :: l.drop (j+1) := by
    rw [List.drop_eq_getElem_cons hj]
    obtain ⟨_, h⟩ := List.getElem?_eq_some.mp hb
    rw [h]
  have hsplit : l.drop (i+1) =
      (l.drop (i+1)).take (j - (i+1)) ++ b :: l.drop (j+1) := by
    conv_lhs => rw [← List.take_append_drop (j - (i+1)) (l.drop (i+1))]
    rw [List.drop_drop]
    have harith : i + 1 + (j - (i+1)) = j := by omega
    rw [harith, hdj]
  conv_lhs => rw [← List.take_append_drop i l]
  rw [hdi, ← hsplit]

theorem decomp_indices {A B C l : List Char} {a b : Char}
    (hl : l = A ++ a :: (B ++ b :: C)) :
    l[A.length]? = some a ∧ l[A.length + 1 + B.length]? = some b ∧
    l.take A.length = A ∧ (l.drop (A.length + 1)).take B.length = B ∧
    l.drop (A.length + 1 + B.length + 1) = C ∧
    l.length = A.length + 1 + B.length + 1 + C.length := by
  subst hl
  have h1 : (A ++ a :: (B ++ b :: C))[A.length]? = some a := by
    rw [List.getElem?_append_right (Nat.le_refl _)]
    simp
  have hmid : A ++ a :: (B ++ b :: C) = (A ++ [a]) ++ (B ++ b :: C) := by simp
  have h2 : (A ++ a :: (B ++ b :: C))[A.length + 1 + B.length]? = some b := by
    rw [hmid, List.getElem?_append_right (by simp)]
    have : A.length + 1 + B.length - (A ++ [a]).length = B.length := by simp
    rw [this, List.getElem?_append_right (Nat.le_refl _)]
    simp
  have h3 : (A ++ a :: (B ++ b :: C)).take A.length = A := List.take_left A _
  have hdrop : (A ++ a :: (B ++ b :: C)).drop (A.length + 1) = B ++ b :: C := by
    rw [hmid]
    have : A.length + 1 = (A ++ [a]).length := by simp
    rw [this, List.drop_left]
  have h4 : ((A ++ a :: (B ++ b :: C)).drop (A.length + 1)).take B.length = B := by
    rw [hdrop]; exact List.take_left B _
  have h5 : (A ++ a :: (B ++ b :: C)).drop (A.length + 1 + B.length + 1) = C := by
    have hmid2 : A ++ a :: (B ++ b :: C) = (A ++ a :: B ++ [b]) ++ C := by simp
    rw [hmid2]
    have : A.length + 1 + B.length + 1 = (A ++ a :: B ++ [b]).length := by
      simp; omega
    rw [this, List.drop_left]
  refine ⟨h1, h2, h3, h4, h5, by simp; omega⟩

/-- Characterisation of the email regex as the existence of the
`A ++ '@' :: B ++ '.' :: C` decomposition. -/
theorem validateEmail_iff_decomp (l : List Char) :
    validateEmail l = true ↔
      ∃ A B C : List Char, l = A ++ '@' :: (B ++ '.' :: C) ∧
        A ≠ [] ∧ B ≠ [] ∧ C ≠ [] ∧
        (∀ c ∈ A, emailCharOk c = true) ∧ (∀ c ∈ B, emailCharOk c = true) ∧
        (∀ c ∈ C, emailCharOk c = true) := by
  constructor
  · intro h
    simp only [validateEmail, List.any_eq_true, List.mem_range,
      decide_eq_true_eq] at h
    obtain ⟨i, hi, j, hj, h1, h2, h3, h4, h5, h6, h7, h8⟩ := h
    have hij : i < j := by omega
    have hsplit := split_two_getElem hij h4 h5
    refine ⟨l.take i, (l.drop (i+1)).take (j - (i+1)), l.drop (j+1),
      hsplit, ?_, ?_, ?_, ?_, ?_, ?_⟩
    · have : (l.take i).length = i := by
        rw [List.length_take]; omega
      intro hnil; rw [hnil] at this; simp at this; omega
    · have : ((l.drop (i+1)).take (j - (i+1))).length = j - (i + 1) := by
        rw [List.length_take, List.length_drop]; omega
      intro hnil; rw [hnil] at this; simp at this; omega
    · have : (l.drop (j+1)).length = l.length - (j + 1) := List.length_drop _ _
      intro hnil; rw [hnil] at this; simp at this; omega
    · exact fun c hc => (List.all_eq_true.mp h6) c hc
    · exact fun c hc => (List.all_eq_true.mp h7) c hc
    · exact fun c hc => (List.all_eq_true.mp h8) c hc
  · rintro ⟨A, B, C, hl, hA, hB, hC, hAok, hBok, hCok⟩
    obtain ⟨h1, h2, h3, h4, h5, h6⟩ := decomp_indices hl
    have hAlen : 0 < A.length := List.length_pos.mpr hA
    have hBlen : 0 < B.length := List.length_pos.mpr hB
    have hClen : 0 < C.length := List.length_pos.mpr hC
    simp only [validateEmail]
    apply any_range_of_holds (i := A.length) (by omega)
    apply any_range_of_holds (i := A.length + 1 + B.length) (by omega)
    simp only [decide_eq_true_eq]
    refine ⟨by omega, by omega, by omega, h1, h2, ?_, ?_, ?_⟩
    · rw [h3]; exact List.all_eq_true.mpr hAok
    · have : A.length + 1 + B.length - (A.length + 1) = B.length := by omega
      rw [this, h4]; exact List.all_eq_true.mpr hBok
    · have : A.length + 1 + B.length + 1 = A.length + 1 + B.length + 1 := rfl
      rw [show A.length + 1 + B.length + 1 = A.length + 1 + B.length + 1 from rfl] at h5
      rw [h5]; exact List.all_eq_true.mpr hCok

theorem emailCharOk_iff (c : Char) :
    emailCharOk c = true ↔ (isJsWs c = false ∧ c ≠ '@') := by
  simp [emailCharOk]

/-- C2: `validateEmail s` accepts exactly the strings with no whitespace,
exactly one `'@'` that is neither first nor last, and a `'.'` in the part
after the `'@'` with at least one character on each side of it (within the
string). -/
theorem C2_validateEmail (l : List Char) :
    validateEmail l = true ↔
      ((∀ c ∈ l, isJsWs c = false) ∧
       l.count '@' = 1 ∧
       ∃ i, l[i]? = some '@' ∧ 1 ≤ i ∧ i + 2 ≤ l.length ∧
         ∃ j, i + 2 ≤ j ∧ j + 2 ≤ l.length ∧ l[j]? = some '.') := by
  rw [validateEmail_iff_decomp]
  constructor
  · rintro ⟨A, B, C, hl, hA, hB, hC, hAok, hBok, hCok⟩
    obtain ⟨h1, h2, h3, h4, h5, h6⟩ := decomp_indices hl
    have hAlen : 0 < A.length := List.length_pos.mpr hA
    have hBlen : 0 < B.length := List.length_pos.mpr hB
    have hClen : 0 < C.length := List.length_pos.mpr hC
    refine ⟨?_, ?_, A.length, h1, by omega, by omega,
      A.length + 1 + B.length, by omega, by omega, h2⟩
    · intro c hc
      rw [hl] at hc
      simp only [List.mem_append, List.mem_cons] at hc
      rcases hc with hc | hc | hc | hc | hc
      · exact ((emailCharOk_iff c).mp (hAok c hc)).1
      · subst hc; decide
      · exact ((emailCharOk_iff c).mp (hBok c hc)).1
      · subst hc; decide
      · exact ((emailCharOk_iff c).mp (hCok c hc)).1
    · rw [hl]
      have cA : A.count '@' = 0 :=
        List.count_eq_zero.mpr fun hc => ((emailCharOk_iff _).mp (hAok _ hc)).2 rfl
      have cB : B.count '@' = 0 :=
        List.count_eq_zero.mpr fun hc => ((emailCharOk_iff _).mp (hBok _ hc)).2 rfl
      have cC : C.count '@' = 0 :=
        List.count_eq_zero.mpr fun hc => ((emailCharOk_iff _).mp (hCok _ hc)).2 rfl
      simp [List.count_append, List.count_cons, cA, cB, cC]
  · rintro ⟨hws, hcount, i, hi, hi1, hilen, j, hij, hjlen, hj⟩
    have hijlt : i < j := by omega
    have hsplit := split_two_getElem hijlt hi hj
    have hilt : i < l.length := (List.getElem?_eq_some.mp hi).1
    have hjlt : j < l.length := (List.getElem?_eq_some.mp hj).1
    -- every character other than the unique '@' differs from '@'
    have hc0 : (l.take i).count '@' +
        (((l.drop (i+1)).take (j - (i+1))).count '@' + (l.drop (j+1)).count '@' + 1) =
        1 := by
      have := congrArg (List.count '@') hsplit
      simpa [List.count_append, List.count_cons] using this.symm.trans hcount
    have cA : (l.take i).count '@' = 0 := by omega
    have cB : ((l.drop (i+1)).take (j - (i+1))).count '@' = 0 := by omega
    have cC : (l.drop (j+1)).count '@' = 0 := by omega
    have hAat : ∀ c ∈ l.take i, c ≠ '@' := fun c hc heq =>
      (List.count_eq_zero.mp cA) (heq ▸ hc)
    have hBat : ∀ c ∈ (l.drop (i+1)).take (j - (i+1)), c ≠ '@' := fun c hc heq =>
      (List.count_eq_zero.mp cB) (heq ▸ hc)
    have hCat : ∀ c ∈ l.drop (j+1), c ≠ '@' := fun c hc heq =>
      (List.count_eq_zero.mp cC) (heq ▸ hc)
    refine ⟨l.take i, (l.drop (i+1)).take (j - (i+1)), l.drop (j+1), hsplit,
      ?_, ?_, ?_, ?_, ?_, ?_⟩
    · have : (l.take i).length = i := by rw [List.length_take]; omega
      intro hnil; rw [hnil] at this; simp at this; omega
    · have : ((l.drop (i+1)).take (j - (i+1))).length = j - (i + 1) := by
        rw [List.length_take, List.length_drop]; omega
      intro hnil; rw [hnil] at this; simp at this; omega
    · have : (l.drop (j+1)).length = l.length - (j + 1) := List.length_drop _ _
      intro hnil; rw [hnil] at this; simp at this; omega
    · intro c hc
      refine (emailCharOk_iff c).mpr ⟨hws c ((List.take_sublist i l).subset hc), hAat c hc⟩
    · intro c hc
      have hmem : c ∈ l :=
        (List.drop_sublist (i+1) l).subset ((List.take_sublist _ _).subset hc)
      exact (emailCharOk_iff c).mpr ⟨hws c hmem, hBat c hc⟩
    · intro c hc
      have hmem : c ∈ l := (List.drop_sublist (j+1) l).subset hc
      exact (emailCharOk_iff c).mpr ⟨hws c hmem, hCat c hc⟩

/-! ### `detectSQLInjection` / `detectXSS` (`_shared/utils.ts` lines 106-126)

Each hard-coded pattern (all with flags `gi`) is unfolded into an
executable existence-of-occurrence predicate over `List Char`; `.test`
on a fresh regex is exactly "some occurrence exists". -/

/-- Word-boundary context to the left/right of a match: absent neighbour or
a non-`\w` neighbour. -/
def boundaryOk : Option Char → Bool
  | none => true
  | some c => !isWordChar c

/-- `\b<word>\b` (case-insensitive) occurs at index `i`. -/
def wholeWordAt (w l : List Char) (i : Nat) : Bool :=
  (if i = 0 then true else boundaryOk l[i-1]?) &&
  substrAtCI w l i && boundaryOk l[i + w.length]?

/-- `\b<word>\b` (case-insensitive) occurs somewhere in `l`. -/
def hasWholeWordCI (w l : List Char) : Bool :=
  (List.range l.length).any fun i => wholeWordAt w l i

/-- The keyword alternation of the first SQL pattern, in source order. -/
def sqlDetectKeywords : List (List Char) :=
  ["SELECT", "INSERT", "UPDATE", "DELETE", "DROP", "CREATE", "ALTER",
   "EXEC", "UNION", "SCRIPT"].map String.data

/-- First SQL pattern `(\b(SELECT|…|SCRIPT)\b)`: some keyword occurs as a
whole word.  (`\b` before/after an all-letter keyword holds iff the
neighbouring character is absent or not a word character.) -/
def sqlPattern1 (l : List Char) : Bool :=
  sqlDetectKeywords.any fun w => hasWholeWordCI w l

def quoteAlts : List (List Char) := [['%', '2', '7'], [Char.ofNat 39]]
def oAlts : List (List Char) := [['%', '6', 'F'], ['o'], ['%', '4', 'F']]
def rAlts : List (List Char) := [['%', '7', '2'], ['r'], ['%', '5', '2']]

/-- Second SQL pattern `((\%27)|('))((\%6F)|o|(\%4F))((\%72)|r|(\%52))`:
a concatenation of one alternative from each group occurs (all
case-insensitive). -/
def sqlPattern2 (l : List Char) : Bool :=
  quoteAlts.any fun a => oAlts.any fun b => rAlts.any fun c =>
    containsCI (a ++ b ++ c) l

def ltAlts : List (List Char) := [['%', '3', 'C'], ['<']]
def gtAlts : List (List Char) := [['%', '3', 'E'], ['>']]

/-- Third SQL pattern `((\%3C)|(<)).*?((\%3E)|(>))`: an opener occurs at
`i`, a closer at `j`, and every character strictly between them is matched
by `.`, i.e. is not a line terminator. -/
def sqlPattern3 (l : List Char) : Bool :=
  (List.range l.length).any fun i => ltAlts.any fun o =>
    substrAtCI o l i &&
    ((List.range l.length).any fun j => gtAlts.any fun g =>
      decide (i + o.length ≤ j) && substrAtCI g l j &&
      ((l.drop (i + o.length)).take (j - (i + o.length))).all fun ch =>
        !isLineTerm ch)

def detectSQLInjection (l : List Char) : Bool :=
  sqlPattern1 l || sqlPattern2 l || sqlPattern3 l

/-- XSS pattern `<script\b[^<]*(?:(?!<\/script>)<[^<]*)*<\/script>`: it
matches iff `<script` occurs at some `i` with a word boundary after it and
`</script>` occurs at some `j ≥ i + 7`.  (Given the first such closing
occurrence, the text before it splits into `<`-free runs whose leading
`<`s cannot start `</script>`, so `[^<]*(?:(?!<\/script>)<[^<]*)*`
consumes it.) -/
def xssScript (l : List Char) : Bool :=
  (List.range l.length).any fun i =>
    substrAtCI "<script".data l i && boundaryOk l[i + 7]? &&
    ((List.range l.length).any fun j =>
      decide (i + 7 ≤ j) && substrAtCI "</script>".data l j)

/-- XSS pattern `<iframe\b[^<]*(?:(?!<\/iframe>)<[^<]*)*<\/iframe>`,
analogous to `xssScript`. -/
def xssIframe (l : List Char) : Bool :=
  (List.range l.length).any fun i =>
    substrAtCI "<iframe".data l i && boundaryOk l[i + 7]? &&
    ((List.range l.length).any fun j =>
      decide (i + 7 ≤ j) && substrAtCI "</iframe>".data l j)

/-- XSS pattern `javascript:`. -/
def xssJavascript (l : List Char) : Bool :=
  containsCI "javascript:".data l

/-- XSS pattern `on\w+\s*=`: `on`, then at least one word character
(positions `i+2` to `j-1`), then whitespace, then `=` at `k`. -/
def xssOnAttr (l : List Char) : Bool :=
  (List.range l.length).any fun i =>
    substrAtCI ['o', 'n'] l i &&
    ((List.range (l.length + 1)).any fun j =>
      decide (i + 3 ≤ j ∧ j ≤ l.length) &&
      ((l.drop (i + 2)).take (j - (i + 2))).all isWordChar &&
      ((List.range (l.length + 1)).any fun k =>
        decide (j ≤ k) && ((l.drop j).take (k - j)).all isJsWs &&
        (l[k]? == some '=')))

/-- The characters of the (quirky) class `[\\s]` under the `i` flag:
backslash, `s`, `S`. -/
def isBackslashOrS (c : Char) : Bool :=
  c == Char.ofNat 92 || c == 's' || c == 'S'

/-- XSS pattern `<img[^>]+src[\\s]*=[\\s]*["\']javascript:`: `<img`, a
nonempty `>`-free block, `src`, a `[\\s]*` run, `=`, another run, a quote,
then `javascript:`. -/
def xssImgJs (l : List Char) : Bool :=
  (List.range l.length).any fun i =>
    substrAtCI "<img".data l i &&
    ((List.range l.length).any fun j =>
      decide (i + 5 ≤ j) && substrAtCI "src".data l j &&
      ((l.drop (i + 4)).take (j - (i + 4))).all (fun c => !(c == '>')) &&
      ((List.range l.length).any fun m =>
        decide (j + 3 ≤ m) && (l[m]? == some '=') &&
        ((l.drop (j + 3)).take (m - (j + 3))).all isBackslashOrS &&
        ((List.range l.length).any fun n =>
          decide (m + 1 ≤ n) &&
          (l[n]? == some (Char.ofNat 34) || l[n]? == some (Char.ofNat 39)) &&
          ((l.drop (m + 1)).take (n - (m + 1))).all isBackslashOrS &&
          substrAtCI "javascript:".data l (n + 1))))

def detectXSS (l : List Char) : Bool :=
  xssScript l || xssIframe l || xssJavascript l || xssOnAttr l || xssImgJs l

/-- C3 counterexample: the string `"<\n>"` contains `'<'` later followed by
`'>'`, yet `detectSQLInjection` returns `false` on it (the `.` of the third
pattern does not match the line feed). -/
theorem C3_counterexample :
    (∃ i j : Nat, i < j ∧ ['<', Char.ofNat 10, '>'][i]? = some '<' ∧
      ['<', Char.ofNat 10, '>'][j]? = some '>') ∧
    detectSQLInjection ['<', Char.ofNat 10, '>'] = false :=
  ⟨⟨0, 2, by decide, by decide, by decide⟩, by decide⟩

theorem stripCI_isSome_append (pat rest : List Char) :
    (stripCI pat (pat ++ rest)).isSome = true := by
  rw [stripCI_self_append]; rfl

theorem substrAtCI_self (pat pre rest : List Char) :
    substrAtCI pat (pre ++ (pat ++ rest)) pre.length = true := by
  rw [substrAtCI_append, stripCI_self_append]; rfl

theorem getElem?_append_cons {α : Type} (pre : List α) (c : α) (suf : List α) :
    (pre ++ c :: suf)[pre.length]? = some c := by
  rw [List.getElem?_append_right (Nat.le_refl _)]
  simp

theorem drop_append_len {α : Type} (pre rest : List α) (n : Nat)
    (h : n = pre.length) : (pre ++ rest).drop n = rest := by
  subst h; exact List.drop_left pre rest

theorem getElem?_append_cons_at {α : Type} (pre : List α) (c : α) (suf : List α)
    (n : Nat) (h : n = pre.length) : (pre ++ c :: suf)[n]? = some c := by
  subst h; exact getElem?_append_cons pre c suf

theorem substrAtCI_self_at (pat pre rest : List Char) (n : Nat)
    (h : n = pre.length) : substrAtCI pat (pre ++ (pat ++ rest)) n = true := by
  subst h; exact substrAtCI_self pat pre rest

theorem sqlPattern3_of_decomp {l pre mid post : List Char}
    (hl : l = pre ++ '<' :: (mid ++ '>' :: post))
    (hmid : ∀ c ∈ mid, isLineTerm c = false) :
    sqlPattern3 l = true := by
  obtain ⟨h1, h2, h3, h4, h5, h6⟩ := decomp_indices hl
  simp only [sqlPattern3]
  apply any_range_of_holds (i := pre.length) (by omega)
  apply List.any_eq_true.mpr
  refine ⟨['<'], by simp [ltAlts], ?_⟩
  rw [Bool.and_eq_true]
  constructor
  · have hl' : l = pre ++ (['<'] ++ (mid ++ '>' :: post)) := by simpa using hl
    rw [hl']
    exact substrAtCI_self _ _ _
  · apply any_range_of_holds (i := pre.length + 1 + mid.length) (by omega)
    apply List.any_eq_true.mpr
    refine ⟨['>'], by simp [gtAlts], ?_⟩
    rw [Bool.and_eq_true]
    refine ⟨?_, ?_⟩
    · rw [Bool.and_eq_true]
      refine ⟨by simp, ?_⟩
      have hl' : l = (pre ++ '<' :: mid) ++ (['>'] ++ post) := by simp [hl]
      rw [hl']
      exact substrAtCI_self_at _ _ _ _ (by simp; omega)
    · have hlen : ['<'].length = 1 := rfl
      have htake : (l.drop (pre.length + 1)).take
          (pre.length + 1 + mid.length - (pre.length + 1)) = mid := by
        have : pre.length + 1 + mid.length - (pre.length + 1) = mid.length := by omega
        rw [this, h4]
      simp only [hlen, htake]
      exact List.all_eq_true.mpr fun c hc => by simp [hmid c hc]

theorem tagPattern_of_decomp {l pre mid post : List Char} (opener closer : List Char)
    (hl : l = pre ++ (opener ++ '>' :: (mid ++ (closer ++ post))))
    (hop : opener.length = 7) (hcl : 1 ≤ closer.length) :
    ((List.range l.length).any fun i =>
      substrAtCI opener l i && boundaryOk l[i + 7]? &&
      ((List.range l.length).any fun j =>
        decide (i + 7 ≤ j) && substrAtCI closer l j)) = true := by
  have hlen : l.length =
      pre.length + 7 + 1 + mid.length + closer.length + post.length := by
    simp [hl, hop]; omega
  apply any_range_of_holds (i := pre.length) (by omega)
  rw [Bool.and_eq_true]
  refine ⟨?_, ?_⟩
  · rw [Bool.and_eq_true]
    refine ⟨by rw [hl]; exact substrAtCI_self _ _ _, ?_⟩
    have hat : l[pre.length + 7]? = some '>' := by
      have hl' : l = (pre ++ opener) ++ '>' :: (mid ++ (closer ++ post)) := by
        simp [hl]
      rw [hl']
      exact getElem?_append_cons_at _ _ _ _ (by simp [hop])
    rw [hat]
    decide
  · apply any_range_of_holds (i := pre.length + 7 + 1 + mid.length) (by omega)
    rw [Bool.and_eq_true]
    refine ⟨by simp; omega, ?_⟩
    have hl' : l = (pre ++ opener ++ '>' :: mid) ++ (closer ++ post) := by
      simp [hl]
    rw [hl']
    exact substrAtCI_self_at _ _ _ _ (by simp [hop]; omega)

theorem xssOnAttr_of_decomp {l pre w sp post : List Char}
    (hl : l = pre ++ ('o' :: 'n' :: (w ++ (sp ++ '=' :: post))))
    (hw : w ≠ []) (hword : ∀ c ∈ w, isWordChar c = true)
    (hsp : ∀ c ∈ sp, isJsWs c = true) : xssOnAttr l = true := by
  have hwlen : 1 ≤ w.length := List.length_pos.mpr hw
  have hlen : l.length = pre.length + 2 + w.length + sp.length + 1 + post.length := by
    simp [hl]; omega
  simp only [xssOnAttr]
  apply any_range_of_holds (i := pre.length) (by omega)
  rw [Bool.and_eq_true]
  refine ⟨?_, ?_⟩
  · have hl' : l = pre ++ (['o', 'n'] ++ (w ++ (sp ++ '=' :: post))) := by simp [hl]
    rw [hl']
    exact substrAtCI_self _ _ _
  · apply any_range_of_holds (i := pre.length + 2 + w.length) (by omega)
    rw [Bool.and_eq_true]
    refine ⟨?_, ?_⟩
    · rw [Bool.and_eq_true]
      refine ⟨by simp; omega, ?_⟩
      have hdrop : l.drop (pre.length + 2) = w ++ (sp ++ '=' :: post) := by
        have hl' : l = (pre ++ ['o', 'n']) ++ (w ++ (sp ++ '=' :: post)) := by
          simp [hl]
        rw [hl']
        exact drop_append_len _ _ _ (by simp)
      have harith : pre.length + 2 + w.length - (pre.length + 2) = w.length := by
        omega
      rw [harith, hdrop, List.take_left]
      exact List.all_eq_true.mpr hword
    · apply any_range_of_holds (i := pre.length + 2 + w.length + sp.length)
        (by omega)
      rw [Bool.and_eq_true]
      refine ⟨?_, ?_⟩
      · rw [Bool.and_eq_true]
        refine ⟨by simp, ?_⟩
        have hdrop : l.drop (pre.length + 2 + w.length) = sp ++ '=' :: post := by
          have hl' : l = (pre ++ 'o' :: 'n' :: w) ++ (sp ++ '=' :: post) := by
            simp [hl]
          rw [hl']
          exact drop_append_len _ _ _ (by simp; omega)
        have harith : pre.length + 2 + w.length + sp.length -
            (pre.length + 2 + w.length) = sp.length := by omega
        rw [harith, hdrop, List.take_left]
        exact List.all_eq_true.mpr hsp
      · have hat : l[pre.length + 2 + w.length + sp.length]? = some '=' := by
          have hl' : l = (pre ++ 'o' :: 'n' :: w ++ sp) ++ '=' :: post := by
            simp [hl]
          rw [hl']
          exact getElem?_append_cons_at _ _ _ _ (by simp; omega)
        simp [hat]

/-- C3 (amended): `detectSQLInjection` is true exactly when one of its three
patterns matches; in particular it is true for every string containing one
of the ten keywords as a (case-insensitive) whole word, and for every string
containing a `'<'` later followed by a `'>'` with no line terminator between
them (the line-terminator caveat is the amendment: `.` does not cross
newlines).  `detectXSS` is true exactly when one of its five patterns
matches; in particular it is true for strings containing `javascript:` in
any case, a complete `<script>…</script>` or `<iframe>…</iframe>` element,
or an `on<word>=` attribute pattern.  Strings matching none of the listed
patterns are never flagged. -/
theorem C3_detect_patterns_amended :
    (∀ l, detectSQLInjection l = (sqlPattern1 l || sqlPattern2 l || sqlPattern3 l)) ∧
    (∀ l w, w ∈ sqlDetectKeywords → hasWholeWordCI w l = true →
      detectSQLInjection l = true) ∧
    (∀ l pre mid post, l = pre ++ '<' :: (mid ++ '>' :: post) →
      (∀ c ∈ mid, isLineTerm c = false) → detectSQLInjection l = true) ∧
    (∀ l, detectXSS l =
      (xssScript l || xssIframe l || xssJavascript l || xssOnAttr l || xssImgJs l)) ∧
    (∀ l pre post, l = pre ++ ("javascript:".data ++ post) → detectXSS l = true) ∧
    (∀ l pre mid post,
      l = pre ++ ("<script>".data ++ (mid ++ ("</script>".data ++ post))) →
      detectXSS l = true) ∧
    (∀ l pre mid post,
      l = pre ++ ("<iframe>".data ++ (mid ++ ("</iframe>".data ++ post))) →
      detectXSS l = true) ∧
    (∀ l pre w sp post, l = pre ++ ('o' :: 'n' :: (w ++ (sp ++ '=' :: post))) →
      w ≠ [] → (∀ c ∈ w, isWordChar c = true) → (∀ c ∈ sp, isJsWs c = true) →
      detectXSS l = true) := by
  refine ⟨fun _ => rfl, ?_, ?_, fun _ => rfl, ?_, ?_, ?_, ?_⟩
  · intro l w hw h
    have h1 : sqlPattern1 l = true :=
      List.any_eq_true.mpr ⟨w, hw, h⟩
    simp [detectSQLInjection, h1]
  · intro l pre mid post hl hmid
    have h3 : sqlPattern3 l = true := sqlPattern3_of_decomp hl hmid
    simp [detectSQLInjection, h3]
  · intro l pre post hl
    have hx : xssJavascript l = true := by
      rw [hl]
      exact containsCI_of_strip (stripCI_isSome_append _ _)
    simp [detectXSS, hx]
  · intro l pre mid post hl
    have hx : xssScript l = true := by
      have hl' : l =
          pre ++ ("<script".data ++ '>' :: (mid ++ ("</script>".data ++ post))) := by
        simpa using hl
      exact tagPattern_of_decomp "<script".data "</script>".data hl' rfl
        (by decide)
    simp [detectXSS, hx]
  · intro l pre mid post hl
    have hx : xssIframe l = true := by
      have hl' : l =
          pre ++ ("<iframe".data ++ '>' :: (mid ++ ("</iframe>".data ++ post))) := by
        simpa using hl
      exact tagPattern_of_decomp "<iframe".data "</iframe>".data hl' rfl
        (by decide)
    simp [detectXSS, hx]
  · intro l pre w sp post hl hw hword hsp
    have hx : xssOnAttr l = true := xssOnAttr_of_decomp hl hw hword hsp
    simp [detectXSS, hx]

/-- Witness for `C3_detect_patterns_amended` at concrete inputs. -/
theorem C3_detect_patterns_amended_witness :
    detectSQLInjection "DROP TABLE users".data = true ∧
    detectXSS "<script>hi</script>".data = true ∧
    detectSQLInjection "a < b > c".data = true :=
  ⟨C3_detect_patterns_amended.2.1 "DROP TABLE users".data "DROP".data
      (by decide) (by decide),
   C3_detect_patterns_amended.2.2.2.2.2.1 "<script>hi</script>".data
      [] "hi".data [] (by decide),
   C3_detect_patterns_amended.2.2.1 "a < b > c".data "a ".data " b ".data
      " c".data (by decide) (by decide)⟩

/-! ### `sanitizeString` (`_shared/utils.ts` lines 40-46)

```
input.replace(/[<>'"\\;]/g, '')
     .replace(/\b(DROP|DELETE|UPDATE|INSERT|CREATE|ALTER|EXEC|UNION|SELECT)\b/gi, '')
     .trim()
```
The first `replace` is a character filter; the second is modelled by a
left-to-right scan (`removeKw`) that mirrors a global regex replace: it
tracks the previous character of the *original* string for the leading
`\b`, tries the alternatives in source order at each position, and resumes
after the end of a removed match.  `trim` drops JS whitespace from both
ends. -/

/-- The characters removed by `/[<>'"\\;]/g`: `< > ' " \ ;`
(code points 60, 62, 39, 34, 92, 59). -/
def badChar (c : Char) : Bool :=
  c.toNat == 60 || c.toNat == 62 || c.toNat == 39 || c.toNat == 34 ||
  c.toNat == 92 || c.toNat == 59

def removeChars (l : List Char) : List Char := l.filter fun c => !badChar c

/-- The keyword alternation of the sanitising regex, in source order. -/
def sanitizeKeywords : List (List Char) :=
  ["DROP", "DELETE", "UPDATE", "INSERT", "CREATE", "ALTER", "EXEC",
   "UNION", "SELECT"].map String.data

/-- Strip a case-insensitive pattern prefix, also returning the last input
character that was consumed (the character the scan resumes after). -/
def stripCIlast : List Char → List Char → Option (Char × List Char)
  | [], _ => none
  | _ :: _, [] => none
  | [k], c :: cs => if eqCI c k then some (c, cs) else none
  | k :: k2 :: ks, c :: cs => if eqCI c k then stripCIlast (k2 :: ks) cs else none

/-- The trailing `\b`: next character absent or not a word character. -/
def afterOk : List Char → Bool
  | [] => true
  | c :: _ => !isWordChar c

/-- A keyword match at the current position, given the previous original
character (`none` at the start of the string): leading `\b`, one of the
alternatives (first in source order), trailing `\b`. -/
def kwAt (p : Option Char) (l : List Char) : Option (Char × List Char) :=
  if boundaryOk p then
    sanitizeKeywords.findSome? fun w =>
      match stripCIlast w l with
      | some (x, rest) => if afterOk rest then some (x, rest) else none
      | none => none
  else none

theorem stripCIlast_length : ∀ {w l : List Char} {x : Char} {rest : List Char},
    stripCIlast w l = some (x, rest) → rest.length < l.length
  | [], _, _, _, h => by simp [stripCIlast] at h
  | _ :: _, [], _, _, h => by simp [stripCIlast] at h
  | [k], c :: cs, x, rest, h => by
    simp only [stripCIlast] at h
    split at h
    · cases h; simp
    · cases h
  | k :: k2 :: ks, c :: cs, x, rest, h => by
    simp only [stripCIlast] at h
    split at h
    · have := stripCIlast_length h
      simp; omega
    · cases h

theorem findSome?_inv {α β : Type} {f : α → Option β} {l : List α} {b : β}
    (h : List.findSome? f l = some b) : ∃ a ∈ l, f a = some b := by
  induction l with
  | nil => simp [List.findSome?] at h
  | cons x xs ih =>
    rw [List.findSome?_cons] at h
    cases hx : f x with
    | some b' =>
      rw [hx] at h
      exact ⟨x, List.mem_cons_self x xs, hx.trans h⟩
    | none =>
      rw [hx] at h
      obtain ⟨a, ha, hfa⟩ := ih h
      exact ⟨a, List.mem_cons_of_mem x ha, hfa⟩

theorem findSome?_isSome_of_mem {α β : Type} {f : α → Option β} {l : List α}
    {a : α} (ha : a ∈ l) (hf : (f a).isSome = true) :
    (List.findSome? f l).isSome = true := by
  induction l with
  | nil => cases ha
  | cons x xs ih =>
    rw [List.findSome?_cons]
    cases hx : f x with
    | some b => rfl
    | none =>
      rcases List.mem_cons.mp ha with rfl | ha'
      · rw [hx] at hf; cases hf
      · exact ih ha'

theorem kwAt_some_length {p : Option Char} {l : List Char} {x : Char}
    {rest : List Char} (h : kwAt p l = some (x, rest)) :
    rest.length < l.length := by
  simp only [kwAt] at h
  split at h
  · obtain ⟨w, _, hw⟩ := findSome?_inv h
    cases hs : stripCIlast w l with
    | none => rw [hs] at hw; cases hw
    | some pr =>
      obtain ⟨x', rest'⟩ := pr
      rw [hs] at hw
      dsimp only at hw
      cases ha : afterOk rest' with
      | false => simp [ha] at hw
      | true =>
        simp only [ha, if_true] at hw
        cases hw
        exact stripCIlast_length hs
  · cases h

/-- Fuel-indexed scan for the global keyword `replace` (structural
recursion on the fuel so that the function reduces definitionally; the
fuel is always at least the input length, so the `0` case with a nonempty
input is unreachable). -/
def removeKwFuel : Nat → Option Char → List Char → List Char
  | 0, _, l => l
  | _ + 1, _, [] => []
  | fuel + 1, p, c :: cs =>
    match kwAt p (c :: cs) with
    | some (x, rest) => removeKwFuel fuel (some x) rest
    | none => c :: removeKwFuel fuel (some c) cs

/-- The global keyword `replace`: scan left to right, removing each match
and resuming after it, outputting unmatched characters unchanged. -/
def removeKw (p : Option Char) (l : List Char) : List Char :=
  removeKwFuel l.length p l

/-- JS `String.prototype.trim`: drop whitespace from both ends. -/
def jsTrim (l : List Char) : List Char :=
  ((l.dropWhile isJsWs).reverse.dropWhile isJsWs).reverse

def sanitizeString (l : List Char) : List Char :=
  jsTrim (removeKw none (removeChars l))

/-- Whether a keyword match (with its boundaries, as in `kwAt`) exists
anywhere in `l`, scanning with the correct previous-character context. -/
def hasKw (p : Option Char) (l : List Char) : Bool :=
  match l with
  | [] => false
  | c :: cs => (kwAt p (c :: cs)).isSome || hasKw (some c) cs

theorem kwAt_not_boundary {p : Option Char} {l : List Char}
    (h : boundaryOk p = false) : kwAt p l = none := by
  simp [kwAt, h]

theorem kwAt_eq_of_boundary {p q : Option Char} (l : List Char)
    (hp : boundaryOk p = true) (hq : boundaryOk q = true) :
    kwAt p l = kwAt q l := by
  simp [kwAt, hp, hq]

theorem kwAt_inv {p : Option Char} {l : List Char} {x : Char}
    {rest : List Char} (h : kwAt p l = some (x, rest)) :
    boundaryOk p = true ∧ ∃ w ∈ sanitizeKeywords,
      stripCIlast w l = some (x, rest) ∧ afterOk rest = true := by
  simp only [kwAt] at h
  split at h
  · next hb =>
    refine ⟨hb, ?_⟩
    obtain ⟨w, hwmem, hw⟩ := findSome?_inv h
    cases hs : stripCIlast w l with
    | none => rw [hs] at hw; cases hw
    | some pr =>
      obtain ⟨x', rest'⟩ := pr
      rw [hs] at hw
      dsimp only at hw
      cases ha : afterOk rest' with
      | false => simp [ha] at hw
      | true =>
        simp only [ha, if_true] at hw
        cases hw
        exact ⟨w, hwmem, hs, ha⟩
  · cases h

theorem kwAt_isSome_of {p : Option Char} {l w : List Char} {x : Char}
    {rest : List Char} (hb : boundaryOk p = true) (hw : w ∈ sanitizeKeywords)
    (hs : stripCIlast w l = some (x, rest)) (ha : afterOk rest = true) :
    (kwAt p l).isSome = true := by
  simp only [kwAt, hb, if_true]
  apply findSome?_isSome_of_mem hw
  rw [hs]
  dsimp only
  rw [ha]
  rfl

theorem removeKwFuel_congr : ∀ (f1 f2 : Nat) (p : Option Char) (l : List Char),
    l.length ≤ f1 → l.length ≤ f2 → removeKwFuel f1 p l = removeKwFuel f2 p l
  | 0, f2, p, l, h1, _ => by
    have : l = [] := List.eq_nil_of_length_eq_zero (Nat.le_zero.mp h1)
    subst this
    cases f2 <;> rfl
  | _ + 1, 0, p, l, _, h2 => by
    have : l = [] := List.eq_nil_of_length_eq_zero (Nat.le_zero.mp h2)
    subst this
    rfl
  | f1 + 1, f2 + 1, p, [], _, _ => rfl
  | f1 + 1, f2 + 1, p, c :: cs, h1, h2 => by
    simp only [removeKwFuel]
    cases hk : kwAt p (c :: cs) with
    | some pr =>
      obtain ⟨x, rest⟩ := pr
      have hlen := kwAt_some_length hk
      simp only [List.length_cons] at h1 h2 hlen
      exact removeKwFuel_congr f1 f2 (some x) rest (by omega) (by omega)
    | none =>
      simp only [List.length_cons] at h1 h2
      rw [removeKwFuel_congr f1 f2 (some c) cs (by omega) (by omega)]

theorem removeKw_nil (p : Option Char) : removeKw p [] = [] := rfl

theorem removeKw_cons_some {p : Option Char} {c : Char} {cs : List Char}
    {x : Char} {rest : List Char} (h : kwAt p (c :: cs) = some (x, rest)) :
    removeKw p (c :: cs) = removeKw (some x) rest := by
  have hlen := kwAt_some_length h
  simp only [List.length_cons] at hlen
  show removeKwFuel (cs.length + 1) p (c :: cs) = removeKw (some x) rest
  simp only [removeKwFuel, h]
  exact removeKwFuel_congr cs.length rest.length (some x) rest (by omega)
    (Nat.le_refl _)

theorem removeKw_cons_none {p : Option Char} {c : Char} {cs : List Char}
    (h : kwAt p (c :: cs) = none) :
    removeKw p (c :: cs) = c :: removeKw (some c) cs := by
  show removeKwFuel (cs.length + 1) p (c :: cs) = c :: removeKw (some c) cs
  simp only [removeKwFuel, h]
  rfl

theorem sanitizeKeywords_upper :
    ∀ w ∈ sanitizeKeywords, ∀ k ∈ w, isUpperA k = true := by decide

theorem sanitizeKeywords_min_len : ∀ w ∈ sanitizeKeywords, 4 ≤ w.length := by
  decide

theorem stripCIlast_some : ∀ {w l : List Char} {x : Char} {rest : List Char},
    stripCIlast w l = some (x, rest) →
    ∃ m, l = m ++ rest ∧ List.Forall₂ (fun c k => eqCI c k = true) m w ∧ m ≠ []
  | [], _, _, _, h => by simp [stripCIlast] at h
  | _ :: _, [], _, _, h => by simp [stripCIlast] at h
  | [k], c :: cs, x, rest, h => by
    simp only [stripCIlast] at h
    split at h
    · next hck =>
      cases h
      exact ⟨[c], rfl, List.Forall₂.cons hck List.Forall₂.nil, by simp⟩
    · cases h
  | k :: k2 :: ks, c :: cs, x, rest, h => by
    simp only [stripCIlast] at h
    split at h
    · next hck =>
      obtain ⟨m, hm, hf, _⟩ := stripCIlast_some h
      exact ⟨c :: m, by simp [hm], List.Forall₂.cons hck hf, by simp⟩
    · cases h

theorem stripCIlast_of_decomp {m w : List Char}
    (h : List.Forall₂ (fun c k => eqCI c k = true) m w) (hm : m ≠ []) :
    ∀ rest, ∃ x, stripCIlast w (m ++ rest) = some (x, rest) := by
  induction h with
  | nil => exact absurd rfl hm
  | @cons a b l₁ l₂ hck htail ih =>
    intro rest
    cases htail with
    | nil => exact ⟨a, by simp [stripCIlast, hck]⟩
    | cons hck2 htail2 =>
      obtain ⟨x, hx⟩ := ih (by simp) rest
      exact ⟨x, by simp only [List.cons_append, stripCIlast, hck, if_true]; exact hx⟩

theorem forall₂_mem_left {R : Char → Char → Prop} :
    ∀ {l₁ l₂ : List Char}, List.Forall₂ R l₁ l₂ → ∀ a ∈ l₁, ∃ b ∈ l₂, R a b := by
  intro l₁ l₂ h
  induction h with
  | nil => intro a ha; cases ha
  | @cons x y t₁ t₂ hxy htail ih =>
    intro a ha
    rcases List.mem_cons.mp ha with rfl | ha'
    · exact ⟨y, List.mem_cons_self y t₂, hxy⟩
    · obtain ⟨b, hb, hab⟩ := ih a ha'
      exact ⟨b, List.mem_cons_of_mem y hb, hab⟩

theorem forall₂_word {m w : List Char}
    (hf : List.Forall₂ (fun c k => eqCI c k = true) m w)
    (hw : w ∈ sanitizeKeywords) : ∀ c ∈ m, isWordChar c = true := by
  intro c hc
  obtain ⟨k, hk, hck⟩ := forall₂_mem_left hf c hc
  exact eqCI_upper_word (sanitizeKeywords_upper w hw k hk) hck

theorem kwAt_head_word {p : Option Char} {c : Char} {cs : List Char}
    {pr : Char × List Char} (h : kwAt p (c :: cs) = some pr) :
    isWordChar c = true := by
  obtain ⟨x, rest⟩ := pr
  obtain ⟨_, w, hw, hs, _⟩ := kwAt_inv h
  obtain ⟨m, hm, hf, hne⟩ := stripCIlast_some hs
  have hc : c ∈ m := by
    cases m with
    | nil => exact absurd rfl hne
    | cons m0 ms =>
      simp only [List.cons_append] at hm
      cases hm
      exact List.mem_cons_self _ _
  exact forall₂_word hf hw c hc

theorem kwAt_none_of_head_nonword {p : Option Char} {c : Char} {cs : List Char}
    (h : isWordChar c = false) : kwAt p (c :: cs) = none := by
  cases hk : kwAt p (c :: cs) with
  | none => rfl
  | some pr =>
    have := kwAt_head_word hk
    rw [h] at this
    cases this

theorem hasKw_nil (p : Option Char) : hasKw p [] = false := rfl

theorem hasKw_cons (p : Option Char) (c : Char) (cs : List Char) :
    hasKw p (c :: cs) = ((kwAt p (c :: cs)).isSome || hasKw (some c) cs) := rfl

/-- If no keyword match exists then the keyword replace is the identity. -/
theorem removeKw_id_of_hasKw_false {p : Option Char} {l : List Char}
    (h : hasKw p l = false) : removeKw p l = l := by
  induction l generalizing p with
  | nil => rfl
  | cons c cs ih =>
    rw [hasKw_cons, Bool.or_eq_false_iff] at h
    obtain ⟨h1, h2⟩ := h
    rw [removeKw_cons_none (Option.not_isSome_iff_eq_none.mp (by simp [h1]))]
    rw [ih h2]

theorem afterOk_removeKw {p : Option Char} {rest : List Char}
    (h : afterOk rest = true) :
    afterOk (removeKw p rest) = true ∧
    (removeKw p rest ≠ [] → (removeKw p rest).head? = rest.head?) := by
  cases rest with
  | nil => simp [removeKw_nil, afterOk]
  | cons c cs =>
    simp only [afterOk] at h
    have hw : isWordChar c = false := by
      cases hcw : isWordChar c
      · rfl
      · rw [hcw] at h; cases h
    rw [removeKw_cons_none (kwAt_none_of_head_nonword hw)]
    simp [afterOk, hw]

theorem hasKw_eq_of_boundary {p q : Option Char} (l : List Char)
    (hp : boundaryOk p = true) (hq : boundaryOk q = true) :
    hasKw p l = hasKw q l := by
  cases l with
  | nil => rfl
  | cons c cs => rw [hasKw_cons, hasKw_cons, kwAt_eq_of_boundary _ hp hq]

theorem hasKw_eq_of_afterOk {p q : Option Char} {l : List Char}
    (h : afterOk l = true) : hasKw p l = hasKw q l := by
  cases l with
  | nil => rfl
  | cons c cs =>
    simp only [afterOk] at h
    have hw : isWordChar c = false := by
      cases hcw : isWordChar c
      · rfl
      · rw [hcw] at h; cases h
    rw [hasKw_cons, hasKw_cons, kwAt_none_of_head_nonword hw,
      kwAt_none_of_head_nonword hw]

/-- First-removal decomposition of the keyword replace: either no match is
ever found (identity), or the input splits as `a ++ m ++ rest` where `m`
is the first removed match, `a` is emitted verbatim, the character before
`m` (the last of `a`, or the context `p`) is a boundary, and the match is
followed by a boundary. -/
theorem removeKw_structure (p : Option Char) (l : List Char) :
    removeKw p l = l ∨
    ∃ a m x rest, l = a ++ m ++ rest ∧
      removeKw p l = a ++ removeKw (some x) rest ∧
      (∃ w ∈ sanitizeKeywords, List.Forall₂ (fun c k => eqCI c k = true) m w) ∧
      m ≠ [] ∧
      (a = [] → boundaryOk p = true) ∧
      (∀ z, a.getLast? = some z → isWordChar z = false) ∧
      afterOk rest = true := by
  induction l generalizing p with
  | nil => exact Or.inl rfl
  | cons c cs ih =>
    cases hk : kwAt p (c :: cs) with
    | some pr =>
      obtain ⟨x, rest⟩ := pr
      obtain ⟨hb, w, hwmem, hs, ha⟩ := kwAt_inv hk
      obtain ⟨m, hm, hf, hne⟩ := stripCIlast_some hs
      refine Or.inr ⟨[], m, x, rest, by simpa using hm,
        by simpa using removeKw_cons_some hk, ⟨w, hwmem, hf⟩, hne,
        fun _ => hb, by simp, ha⟩
    | none =>
      rcases ih (some c) with hid | ⟨a, m, x, rest, hcs, hrw, hfw, hne, hab, halast, ha⟩
      · exact Or.inl (by rw [removeKw_cons_none hk, hid])
      · refine Or.inr ⟨c :: a, m, x, rest, by simp [hcs],
          by rw [removeKw_cons_none hk, hrw]; rfl, hfw, hne, by simp, ?_, ha⟩
        intro z hz
        cases hea : a with
        | nil =>
          subst hea
          simp only [List.getLast?_singleton] at hz
          cases hz
          have hbc : boundaryOk (some c) = true := hab rfl
          simp only [boundaryOk] at hbc
          cases hw : isWordChar c
          · rfl
          · rw [hw] at hbc; cases hbc
        | cons a0 as =>
          subst hea
          exact halast z (List.getLast?_cons_cons ▸ hz)

theorem afterOk_append_left {u : List Char} (v : List Char) (hu : u ≠ []) :
    afterOk (u ++ v) = afterOk u := by
  cases u with
  | nil => exact absurd rfl hu
  | cons c cs => rfl

/-- The crux of idempotence: if no keyword matched at the head of `c :: cs`,
then none matches at the head of `c ::` the keyword-replaced tail either —
every removal site is flanked by boundaries, so a match crossing it would
contain a non-word character or contradict the original scan. -/
theorem kwAt_cons_removeKw {p : Option Char} {c : Char} {cs : List Char}
    (h : kwAt p (c :: cs) = none) :
    kwAt p (c :: removeKw (some c) cs) = none := by
  cases hb : boundaryOk p with
  | false => exact kwAt_not_boundary hb
  | true =>
    rcases removeKw_structure (some c) cs with hid |
      ⟨a, m, x, rest, hcs, hrw, ⟨w2, hw2mem, hf2⟩, hm2ne, hab, halast, ha⟩
    · rw [hid]; exact h
    · rw [hrw]
      have hT := afterOk_removeKw (p := some x) ha
      cases hk2 : kwAt p (c :: (a ++ removeKw (some x) rest)) with
      | none => rfl
      | some pr =>
        exfalso
        obtain ⟨x₂, rest₂⟩ := pr
        obtain ⟨-, w, hwmem, hs, ha₂⟩ := kwAt_inv hk2
        obtain ⟨m₂, hm₂, hf₂, hm₂ne⟩ := stripCIlast_some hs
        have hklen : m₂.length = w.length := hf₂.length_eq
        have hk4 : 4 ≤ m₂.length := by
          rw [hklen]; exact sanitizeKeywords_min_len w hwmem
        have hm₂word : ∀ ch ∈ m₂, isWordChar ch = true := forall₂_word hf₂ hwmem
        have hXT : (c :: a) ++ removeKw (some x) rest = m₂ ++ rest₂ := by
          simpa using hm₂
        rcases Nat.lt_trichotomy m₂.length (c :: a).length with hlt | heq | hgt
        · -- the candidate match lies strictly inside the emitted prefix:
          -- the same match succeeds on the original string, contradiction
          have hm₂eq : m₂ = (c :: a).take m₂.length := by
            have h' := congrArg (List.take m₂.length) hXT
            rw [List.take_append_of_le_length (Nat.le_of_lt hlt),
              List.take_left] at h'
            exact h'.symm
          have hrest₂ : rest₂ = (c :: a).drop m₂.length ++ removeKw (some x) rest := by
            have h' := congrArg (List.drop m₂.length) hXT
            rw [List.drop_append_of_le_length (Nat.le_of_lt hlt),
              List.drop_left] at h'
            exact h'.symm
          have hdropne : (c :: a).drop m₂.length ≠ [] := by
            intro hnil
            have hlen0 : (c :: a).length - m₂.length = 0 := by
              rw [← List.length_drop, hnil]; rfl
            omega
          have hsplit : c :: cs = m₂ ++ ((c :: a).drop m₂.length ++ (m ++ rest)) := by
            rw [hcs]
            calc c :: (a ++ m ++ rest)
                = (c :: a) ++ (m ++ rest) := by simp
              _ = ((c :: a).take m₂.length ++ (c :: a).drop m₂.length) ++
                    (m ++ rest) := by rw [List.take_append_drop]
              _ = m₂ ++ ((c :: a).drop m₂.length ++ (m ++ rest)) := by
                  rw [← hm₂eq, List.append_assoc]
          obtain ⟨x₃, hstrip⟩ := stripCIlast_of_decomp hf₂ hm₂ne
            ((c :: a).drop m₂.length ++ (m ++ rest))
          rw [← hsplit] at hstrip
          have hafter₃ : afterOk ((c :: a).drop m₂.length ++ (m ++ rest)) = true := by
            rw [afterOk_append_left _ hdropne]
            rw [hrest₂, afterOk_append_left _ hdropne] at ha₂
            exact ha₂
          have hcontra := kwAt_isSome_of hb hwmem hstrip hafter₃
          rw [h] at hcontra
          cases hcontra
        · -- the candidate is exactly the emitted prefix `c :: a`: its last
          -- character is the boundary before the removed keyword, which is
          -- not a word character — but all match characters are
          have hm₂eq : m₂ = c :: a := by
            have h' := congrArg (List.take m₂.length) hXT
            rw [List.take_append_of_le_length (Nat.le_of_eq heq),
              List.take_left] at h'
            rw [heq, List.take_length] at h'
            exact h'.symm
          cases hea : a with
          | nil =>
            rw [hea] at heq
            simp only [List.length_cons, List.length_nil] at heq
            omega
          | cons a0 as =>
            have hane : a ≠ [] := by rw [hea]; simp
            have hzlast : a.getLast? = some (a.getLast hane) :=
              List.getLast?_eq_getLast_of_ne_nil hane
            have hznw : isWordChar (a.getLast hane) = false :=
              halast _ hzlast
            have hzmem : a.getLast hane ∈ m₂ := by
              rw [hm₂eq]
              exact List.mem_cons_of_mem c (List.getLast_mem hane)
            have hzw := hm₂word _ hzmem
            rw [hznw] at hzw
            cases hzw
        · -- the candidate extends past the emitted prefix into the
          -- replaced tail, whose first character is a non-word boundary
          cases hTe : removeKw (some x) rest with
          | nil =>
            rw [hTe] at hXT
            have hlenXT := congrArg List.length hXT
            simp only [List.length_append, List.length_cons,
              List.length_nil] at hlenXT
            simp only [List.length_cons] at hgt
            omega
          | cons t ts =>
            have htword : isWordChar t = true := by
              have hidx : ((c :: a) ++ removeKw (some x) rest)[(c :: a).length]? =
                  some t := by
                rw [hTe]
                exact getElem?_append_cons _ _ _
              rw [hXT, List.getElem?_append_left hgt] at hidx
              obtain ⟨hlt₂, hget⟩ := List.getElem?_eq_some.mp hidx
              have htmem : t ∈ m₂ := by
                rw [← hget]
                exact List.getElem_mem hlt₂
              exact hm₂word t htmem
            have htnw : isWordChar t = false := by
              have hafterT : afterOk (removeKw (some x) rest) = true := hT.1
              rw [hTe] at hafterT
              simp only [afterOk] at hafterT
              cases hw : isWordChar t
              · rfl
              · rw [hw] at hafterT; cases hafterT
            rw [htword] at htnw
            cases htnw

theorem hasKw_removeKw_aux :
    ∀ (n : Nat) (p : Option Char) (l : List Char), l.length ≤ n →
      hasKw p (removeKw p l) = false := by
  intro n
  induction n with
  | zero =>
    intro p l hl
    have : l = [] := List.eq_nil_of_length_eq_zero (Nat.le_zero.mp hl)
    subst this
    rfl
  | succ n ih =>
    intro p l hl
    cases l with
    | nil => rfl
    | cons c cs =>
      cases hk : kwAt p (c :: cs) with
      | some pr =>
        obtain ⟨x, rest⟩ := pr
        obtain ⟨-, -, -, -, ha⟩ := kwAt_inv hk
        have hlen := kwAt_some_length hk
        simp only [List.length_cons] at hl hlen
        rw [removeKw_cons_some hk]
        have hR := afterOk_removeKw (p := some x) ha
        rw [hasKw_eq_of_afterOk (q := some x) hR.1]
        exact ih (some x) rest (by omega)
      | none =>
        simp only [List.length_cons] at hl
        rw [removeKw_cons_none hk, hasKw_cons, kwAt_cons_removeKw hk]
        simp only [Option.isSome_none, Bool.false_or]
        exact ih (some c) cs (by omega)

/-- After one pass of the keyword replace, no keyword match (with its
boundaries) remains. -/
theorem hasKw_removeKw (p : Option Char) (l : List Char) :
    hasKw p (removeKw p l) = false :=
  hasKw_removeKw_aux l.length p l (Nat.le_refl _)

theorem stripCIlast_append : ∀ {w l : List Char} {x : Char} {r : List Char}
    (s : List Char), stripCIlast w l = some (x, r) →
    stripCIlast w (l ++ s) = some (x, r ++ s)
  | [], _, _, _, _, h => by simp [stripCIlast] at h
  | _ :: _, [], _, _, _, h => by simp [stripCIlast] at h
  | [k], c :: cs, x, r, s, h => by
    simp only [stripCIlast] at h ⊢
    split at h
    · next hck => cases h; simp [List.cons_append, stripCIlast, hck]
    · cases h
  | k :: k2 :: ks, c :: cs, x, r, s, h => by
    simp only [stripCIlast] at h
    split at h
    · next hck =>
      have := stripCIlast_append s h
      simp only [List.cons_append, stripCIlast, hck, if_true]
      exact this
    · cases h

theorem afterOk_of_all_ws {s : List Char} (h : ∀ c ∈ s, isJsWs c = true) :
    afterOk s = true := by
  cases s with
  | nil => rfl
  | cons c cs =>
    simp only [afterOk]
    rw [isJsWs_not_word (h c (List.mem_cons_self c cs))]
    rfl

theorem hasKw_append_afterOk {p : Option Char} {m sfx : List Char}
    (hm : hasKw p m = true) (hsfx : afterOk sfx = true) :
    hasKw p (m ++ sfx) = true := by
  induction m generalizing p with
  | nil => cases hm
  | cons c cs ih =>
    rw [hasKw_cons, Bool.or_eq_true] at hm
    rw [List.cons_append, hasKw_cons, Bool.or_eq_true]
    rcases hm with hm | hm
    · left
      obtain ⟨pr, hpr⟩ := Option.isSome_iff_exists.mp hm
      obtain ⟨x, rest⟩ := pr
      obtain ⟨hb, w, hw, hs, ha⟩ := kwAt_inv hpr
      have hs' : stripCIlast w ((c :: cs) ++ sfx) = some (x, rest ++ sfx) :=
        stripCIlast_append sfx hs
      have ha' : afterOk (rest ++ sfx) = true := by
        cases rest with
        | nil => simpa using hsfx
        | cons r0 rs => rw [afterOk_append_left _ (by simp)]; exact ha
      exact kwAt_isSome_of hb hw hs' ha'
    · right
      exact ih hm

theorem hasKw_boundary_mono {p q : Option Char} {m : List Char}
    (hm : hasKw q m = true) (hp : boundaryOk p = true) :
    hasKw p m = true := by
  cases m with
  | nil => cases hm
  | cons c cs =>
    rw [hasKw_cons, Bool.or_eq_true] at hm
    rw [hasKw_cons, Bool.or_eq_true]
    rcases hm with hm | hm
    · left
      obtain ⟨pr, hpr⟩ := Option.isSome_iff_exists.mp hm
      obtain ⟨x, rest⟩ := pr
      have hbq : boundaryOk q = true := (kwAt_inv hpr).1
      rw [kwAt_eq_of_boundary _ hp hbq]
      rw [hpr]
      rfl
    · right; exact hm

theorem hasKw_prepend {p q : Option Char} {tw m : List Char}
    (hp : boundaryOk p = true) (htw : ∀ c ∈ tw, isJsWs c = true)
    (hm : hasKw q m = true) : hasKw p (tw ++ m) = true := by
  induction tw generalizing p with
  | nil => exact hasKw_boundary_mono hm hp
  | cons c cs ih =>
    rw [List.cons_append, hasKw_cons, Bool.or_eq_true]
    right
    have hbc : boundaryOk (some c) = true := by
      simp only [boundaryOk]
      rw [isJsWs_not_word (htw c (List.mem_cons_self c cs))]
      rfl
    exact ih hbc fun d hd => htw d (List.mem_cons_of_mem c hd)

theorem head?_append_of_ne_nil {α : Type} {u : List α} (v : List α)
    (hu : u ≠ []) : (u ++ v).head? = u.head? := by
  cases u with
  | nil => exact absurd rfl hu
  | cons c cs => rfl

theorem head?_dropWhile_false {p : Char → Bool} :
    ∀ {l : List Char} {z : Char}, (l.dropWhile p).head? = some z → p z = false
  | [], z, h => by simp [List.dropWhile] at h
  | c :: cs, z, h => by
    rw [List.dropWhile_cons] at h
    split at h
    · exact head?_dropWhile_false h
    · next hpc =>
      simp only [List.head?_cons, Option.some.injEq] at h
      subst h
      simpa using hpc

theorem dropWhile_eq_self_of_head {p : Char → Bool} {l : List Char}
    (h : ∀ z, l.head? = some z → p z = false) : l.dropWhile p = l := by
  cases l with
  | nil => rfl
  | cons c cs =>
    rw [List.dropWhile_cons, if_neg]
    rw [h c rfl]
    simp

theorem dropWhile_eq_core_append (l : List Char) :
    l.dropWhile isJsWs =
      jsTrim l ++ ((l.dropWhile isJsWs).reverse.takeWhile isJsWs).reverse := by
  conv_lhs => rw [← List.reverse_reverse (l.dropWhile isJsWs)]
  conv_lhs =>
    rw [← List.takeWhile_append_dropWhile (p := isJsWs)
      (l := (l.dropWhile isJsWs).reverse)]
  rw [List.reverse_append]
  rfl

/-- `jsTrim l` is the core of `l`: whitespace prefix and suffix around it. -/
theorem jsTrim_decomp (l : List Char) :
    l = l.takeWhile isJsWs ++
      (jsTrim l ++ ((l.dropWhile isJsWs).reverse.takeWhile isJsWs).reverse) := by
  conv_lhs => rw [← List.takeWhile_append_dropWhile (p := isJsWs) (l := l)]
  congr 1
  exact dropWhile_eq_core_append l

theorem hasKw_jsTrim {l : List Char} (h : hasKw none (jsTrim l) = true) :
    hasKw none l = true := by
  have hd := jsTrim_decomp l
  have hsfx : ∀ c ∈ ((l.dropWhile isJsWs).reverse.takeWhile isJsWs).reverse,
      isJsWs c = true := by
    intro c hc
    rw [List.mem_reverse] at hc
    exact List.mem_takeWhile_imp hc
  have h1 : hasKw none
      (jsTrim l ++ ((l.dropWhile isJsWs).reverse.takeWhile isJsWs).reverse) =
      true :=
    hasKw_append_afterOk h (afterOk_of_all_ws hsfx)
  have h2 : hasKw none l = hasKw none (l.takeWhile isJsWs ++
      (jsTrim l ++ ((l.dropWhile isJsWs).reverse.takeWhile isJsWs).reverse)) := by
    rw [← hd]
  rw [h2]
  exact hasKw_prepend rfl (fun c hc => List.mem_takeWhile_imp hc) h1

theorem jsTrim_idem (l : List Char) : jsTrim (jsTrim l) = jsTrim l := by
  have hcore : jsTrim l = ((l.dropWhile isJsWs).reverse.dropWhile isJsWs).reverse :=
    rfl
  have step1 : (jsTrim l).dropWhile isJsWs = jsTrim l := by
    apply dropWhile_eq_self_of_head
    intro z hz
    cases he : jsTrim l with
    | nil => rw [he] at hz; cases hz
    | cons c cs =>
      rw [he] at hz
      simp only [List.head?_cons, Option.some.injEq] at hz
      subst hz
      -- the head of the core is the head of `dropWhile isJsWs l`
      have hne : jsTrim l ≠ [] := by rw [he]; simp
      have hh : (l.dropWhile isJsWs).head? = (jsTrim l).head? := by
        rw [dropWhile_eq_core_append l, head?_append_of_ne_nil _ hne]
      apply head?_dropWhile_false (p := isJsWs) (l := l)
      rw [hh, he]
      rfl
  have step2 : (jsTrim l).reverse.dropWhile isJsWs = (jsTrim l).reverse := by
    apply dropWhile_eq_self_of_head
    intro z hz
    rw [hcore, List.reverse_reverse] at hz
    exact head?_dropWhile_false hz
  show (((jsTrim l).dropWhile isJsWs).reverse.dropWhile isJsWs).reverse = jsTrim l
  rw [step1, step2, List.reverse_reverse]

theorem mem_removeKw_aux :
    ∀ (n : Nat) (p : Option Char) (l : List Char), l.length ≤ n →
      ∀ c ∈ removeKw p l, c ∈ l := by
  intro n
  induction n with
  | zero =>
    intro p l hl
    have : l = [] := List.eq_nil_of_length_eq_zero (Nat.le_zero.mp hl)
    subst this
    simp [removeKw_nil]
  | succ n ih =>
    intro p l hl
    cases l with
    | nil => simp [removeKw_nil]
    | cons c0 cs =>
      cases hk : kwAt p (c0 :: cs) with
      | some pr =>
        obtain ⟨x, rest⟩ := pr
        obtain ⟨-, w, hw, hs, -⟩ := kwAt_inv hk
        obtain ⟨m₂, hm₂, -, -⟩ := stripCIlast_some hs
        have hlen := kwAt_some_length hk
        simp only [List.length_cons] at hl hlen
        rw [removeKw_cons_some hk]
        intro c hc
        have hcrest : c ∈ rest := ih (some x) rest (by omega) c hc
        rw [hm₂]
        exact List.mem_append.mpr (Or.inr hcrest)
      | none =>
        simp only [List.length_cons] at hl
        rw [removeKw_cons_none hk]
        intro c hc
        rcases List.mem_cons.mp hc with rfl | hc'
        · exact List.mem_cons_self _ _
        · exact List.mem_cons_of_mem _ (ih (some c0) cs (by omega) c hc')

theorem mem_removeKw {p : Option Char} {l : List Char} {c : Char}
    (h : c ∈ removeKw p l) : c ∈ l :=
  mem_removeKw_aux l.length p l (Nat.le_refl _) c h

theorem mem_jsTrim {l : List Char} {c : Char} (h : c ∈ jsTrim l) : c ∈ l := by
  have h1 : c ∈ l.dropWhile isJsWs := by
    rw [dropWhile_eq_core_append l]
    exact List.mem_append.mpr (Or.inl h)
  exact (List.dropWhile_sublist isJsWs).subset h1

theorem mem_sanitizeString_not_bad {l : List Char} {c : Char}
    (h : c ∈ sanitizeString l) : badChar c = false := by
  have h1 : c ∈ removeChars l := mem_removeKw (mem_jsTrim h)
  have h2 := List.of_mem_filter h1
  simpa using h2

/-- C8: `sanitizeString` is idempotent — after one pass no removable
character remains, no keyword match (with its `\b` boundaries) remains,
and the result is already trimmed, so a second pass changes nothing. -/
theorem C8_sanitizeString_idempotent (l : List Char) :
    sanitizeString (sanitizeString l) = sanitizeString l := by
  have h1 : removeChars (sanitizeString l) = sanitizeString l :=
    List.filter_eq_self.mpr fun c hc => by
      rw [mem_sanitizeString_not_bad hc]; rfl
  have h2 : hasKw none (sanitizeString l) = false := by
    cases hh : hasKw none (sanitizeString l) with
    | false => rfl
    | true =>
      have := hasKw_jsTrim hh
      rw [hasKw_removeKw none (removeChars l)] at this
      cases this
  have h3 : removeKw none (sanitizeString l) = sanitizeString l :=
    removeKw_id_of_hasKw_false h2
  show jsTrim (removeKw none (removeChars (sanitizeString l))) = sanitizeString l
  rw [h1, h3]
  exact jsTrim_idem _

/-! ### `sanitizeObject` / `validateRequest` (`_shared/utils.ts` lines 87-159)

JSON values are embedded with integer numerals (the claims do not involve
fractional numbers).  `sanitizeObject` sanitises string values and (for
objects) keys, rebuilding the object with JS property-assignment
semantics: assigning an existing key overwrites it in place, a new key is
appended.  (JS enumerates array-index-like keys first; the claims and the
counterexample involve only non-numeric keys, for which enumeration is
insertion order.)  Indexing a non-object with a field name yields
`undefined` (intrinsic properties such as `length` are not modelled and
not exercised by the claims); indexing `null` throws, which the promise
executor's `catch` converts to the `Invalid JSON body` rejection. -/

inductive JsonVal where
  | null : JsonVal
  | bool (b : Bool) : JsonVal
  | num (n : Int) : JsonVal
  | str (s : List Char) : JsonVal
  | arr (elems : List JsonVal) : JsonVal
  | obj (entries : List (List Char × JsonVal)) : JsonVal

/-- JS property assignment on an insertion-ordered object. -/
def setKey (acc : List (List Char × JsonVal)) (k : List Char) (v : JsonVal) :
    List (List Char × JsonVal) :=
  if acc.any fun e => e.1 == k then
    acc.map fun e => if e.1 == k then (k, v) else e
  else acc ++ [(k, v)]

def buildObj (l : List (List Char × JsonVal)) : List (List Char × JsonVal) :=
  l.foldl (fun acc kv => setKey acc kv.1 kv.2) []

mutual

def sanitizeObject : JsonVal → JsonVal
  | .null => .null
  | .bool b => .bool b
  | .num n => .num n
  | .str s => .str (sanitizeString s)
  | .arr elems => .arr (sanitizeArr elems)
  | .obj entries => .obj (buildObj (sanitizeEntries entries))

def sanitizeArr : List JsonVal → List JsonVal
  | [] => []
  | e :: rest => sanitizeObject e :: sanitizeArr rest

def sanitizeEntries :
    List (List Char × JsonVal) → List (List Char × JsonVal)
  | [] => []
  | (k, v) :: rest => (sanitizeString k, sanitizeObject v) :: sanitizeEntries rest

end

/-- `sanitizedBody[field]` for an object body (`undefined` is `none`). -/
def lookupJ : JsonVal → List Char → Option JsonVal
  | .obj entries, k => (entries.find? fun e => e.1 == k).map (·.2)
  | _, _ => none

/-- JS truthiness of a JSON value. -/
def truthy : JsonVal → Bool
  | .null => false
  | .bool b => b
  | .num n => n != 0
  | .str s => !s.isEmpty
  | .arr _ => true
  | .obj _ => true

def truthyOpt : Option JsonVal → Bool
  | none => false
  | some v => truthy v

def hexDigit (n : Nat) : Char :=
  if n < 10 then Char.ofNat (48 + n) else Char.ofNat (87 + n)

/-- `JSON.stringify` escaping of one string character. -/
def escChar (c : Char) : List Char :=
  if c = Char.ofNat 34 then [Char.ofNat 92, Char.ofNat 34]
  else if c = Char.ofNat 92 then [Char.ofNat 92, Char.ofNat 92]
  else if c = Char.ofNat 8 then [Char.ofNat 92, 'b']
  else if c = Char.ofNat 9 then [Char.ofNat 92, 't']
  else if c = Char.ofNat 10 then [Char.ofNat 92, 'n']
  else if c = Char.ofNat 12 then [Char.ofNat 92, 'f']
  else if c = Char.ofNat 13 then [Char.ofNat 92, 'r']
  else if c.toNat < 32 then
    [Char.ofNat 92, 'u', '0', '0', hexDigit (c.toNat / 16), hexDigit (c.toNat % 16)]
  else [c]

def quoteStr (s : List Char) : List Char :=
  Char.ofNat 34 :: (s.flatMap escChar ++ [Char.ofNat 34])

def joinComma : List (List Char) → List Char
  | [] => []
  | [x] => x
  | x :: y :: rest => x ++ ',' :: joinComma (y :: rest)

mutual

/-- `JSON.stringify` (no indentation, as called by `validateRequest`). -/
def jsonStringify : JsonVal → List Char
  | .null => "null".data
  | .bool true => "true".data
  | .bool false => "false".data
  | .num n => (toString n).data
  | .str s => quoteStr s
  | .arr elems => '[' :: (joinComma (stringifyArr elems) ++ [']'])
  | .obj entries =>
      Char.ofNat 123 :: (joinComma (stringifyEntries entries) ++ [Char.ofNat 125])

def stringifyArr : List JsonVal → List (List Char)
  | [] => []
  | e :: rest => jsonStringify e :: stringifyArr rest

def stringifyEntries : List (List Char × JsonVal) → List (List Char)
  | [] => []
  | (k, v) :: rest => (quoteStr k ++ ':' :: jsonStringify v) :: stringifyEntries rest

end

/-- `validateRequest` (`_shared/utils.ts` lines 128-159): parse failure
rejects with `Invalid JSON body`; otherwise the body is sanitised, the
required fields are checked for truthiness in order (indexing a `null`
body throws, landing in the same catch), and the sanitised body's
stringification is screened by the two detectors before resolving. -/
def isNullJ : JsonVal → Bool
  | .null => true
  | _ => false

def validateRequest (body : Option JsonVal) (requiredFields : List (List Char)) :
    Except (List Char) JsonVal :=
  match body with
  | none => .error "Invalid JSON body".data
  | some b =>
    let sb := sanitizeObject b
    if isNullJ sb && !requiredFields.isEmpty then .error "Invalid JSON body".data
    else
      match requiredFields.find? fun f => !truthyOpt (lookupJ sb f) with
      | some f => .error ("Missing required field: ".data ++ f)
      | none =>
        if detectSQLInjection (jsonStringify sb) then
          .error "SQL injection attempt detected".data
        else if detectXSS (jsonStringify sb) then
          .error "XSS attempt detected".data
        else .ok sb

/-- The last value assigned to key `k` by a sequence of entries. -/
def lastVal : List (List Char × JsonVal) → List Char → Option JsonVal
  | [], _ => none
  | kv :: rest, k =>
    match lastVal rest k with
    | some v => some v
    | none => if kv.1 == k then some kv.2 else none

theorem find?_map_replace {k : List Char} {v : JsonVal} :
    ∀ {es : List (List Char × JsonVal)}, es.any (fun e => e.1 == k) = true →
    ((es.map fun e => if e.1 == k then (k, v) else e).find?
      fun e => e.1 == k) = some (k, v) := by
  intro es
  induction es with
  | nil => intro h; cases h
  | cons e es ih =>
    intro hany
    by_cases he : (e.1 == k) = true
    · simp only [List.map_cons, if_pos he]
      rw [List.find?_cons_of_pos (p := fun e : List Char × JsonVal => e.1 == k) _ (by simp)]
    · simp only [List.any_cons, Bool.or_eq_true] at hany
      have hany' : es.any (fun e => e.1 == k) = true := by
        rcases hany with h | h
        · exact absurd h he
        · exact h
      simp only [List.map_cons, if_neg he]
      rw [List.find?_cons_of_neg (p := fun e : List Char × JsonVal => e.1 == k) _ he]
      exact ih hany'

theorem find?_map_replace_ne {k : List Char} {v : JsonVal} {k' : List Char}
    (hk : k' ≠ k) : ∀ (es : List (List Char × JsonVal)),
    ((es.map fun e => if e.1 == k then (k, v) else e).find?
      fun e => e.1 == k') = es.find? fun e => e.1 == k' := by
  intro es
  induction es with
  | nil => rfl
  | cons e es ih =>
    by_cases he : (e.1 == k) = true
    · simp only [List.map_cons, if_pos he]
      have hek : e.1 = k := by simpa using he
      have h1 : ¬ ((k, v).1 == k') = true := by
        simp only [beq_iff_eq]
        exact fun h => hk h.symm
      have h2 : ¬ (e.1 == k') = true := by
        simp only [beq_iff_eq, hek]
        exact fun h => hk h.symm
      rw [List.find?_cons_of_neg (p := fun e : List Char × JsonVal => e.1 == k') _ h1,
        List.find?_cons_of_neg (p := fun e : List Char × JsonVal => e.1 == k') _ h2]
      exact ih
    · simp only [List.map_cons, if_neg he]
      by_cases hp : (e.1 == k') = true
      · rw [List.find?_cons_of_pos (p := fun e : List Char × JsonVal => e.1 == k') _ hp,
          List.find?_cons_of_pos (p := fun e : List Char × JsonVal => e.1 == k') _ hp]
      · rw [List.find?_cons_of_neg (p := fun e : List Char × JsonVal => e.1 == k') _ hp,
          List.find?_cons_of_neg (p := fun e : List Char × JsonVal => e.1 == k') _ hp]
        exact ih

theorem find?_append_single {k : List Char} {v : JsonVal} {k' : List Char}
    (es : List (List Char × JsonVal)) (hes : es.any (fun e => e.1 == k') = false) :
    ((es ++ [(k, v)]).find? fun e => e.1 == k') =
      if k' = k then some (k, v) else none := by
  induction es with
  | nil =>
    simp only [List.nil_append]
    by_cases hk : k' = k
    · subst hk
      rw [List.find?_cons_of_pos (p := fun e : List Char × JsonVal => e.1 == k') _ (by simp), if_pos rfl]
    · have h1 : ¬ ((k, v).1 == k') = true := by
        simp only [beq_iff_eq]
        exact fun h => hk h.symm
      rw [List.find?_cons_of_neg (p := fun e : List Char × JsonVal => e.1 == k') _ h1,
        List.find?_nil, if_neg hk]
  | cons e es ih =>
    simp only [List.any_cons, Bool.or_eq_false_iff] at hes
    obtain ⟨he, hes'⟩ := hes
    simp only [List.cons_append]
    rw [List.find?_cons_of_neg (p := fun e : List Char × JsonVal => e.1 == k') _ (by simp [he])]
    exact ih hes'

theorem find?_setKey (acc : List (List Char × JsonVal)) (k : List Char)
    (v : JsonVal) (k' : List Char) :
    ((setKey acc k v).find? fun e => e.1 == k') =
      if k' = k then some (k, v) else acc.find? fun e => e.1 == k' := by
  simp only [setKey]
  split
  · next hany =>
    by_cases hk : k' = k
    · subst hk
      rw [if_pos rfl]
      exact find?_map_replace hany
    · rw [if_neg hk]
      exact find?_map_replace_ne hk acc
  · next hany =>
    by_cases hk : k' = k
    · subst hk
      rw [if_pos rfl]
      have hes : acc.any (fun e => e.1 == k') = false := by
        cases ha : acc.any fun e => e.1 == k'
        · rfl
        · exact absurd ha hany
      rw [find?_append_single acc hes, if_pos rfl]
    · rw [if_neg hk, List.find?_append]
      cases hfa : acc.find? fun e => e.1 == k' with
      | some pr => rfl
      | none =>
        have h1 : ¬ ((k, v).1 == k') = true := by
          simp only [beq_iff_eq]
          exact fun h => hk h.symm
        rw [Option.none_or,
          List.find?_cons_of_neg (p := fun e : List Char × JsonVal => e.1 == k') _ h1, List.find?_nil]

theorem find?_buildObj_aux (entries : List (List Char × JsonVal))
    (k : List Char) :
    ∀ acc, ((entries.foldl (fun a kv => setKey a kv.1 kv.2) acc).find?
        fun e => e.1 == k) =
      match lastVal entries k with
      | some v => some (k, v)
      | none => acc.find? fun e => e.1 == k := by
  induction entries with
  | nil => intro acc; rfl
  | cons kv rest ih =>
    intro acc
    simp only [List.foldl_cons, lastVal]
    rw [ih (setKey acc kv.1 kv.2)]
    cases hl : lastVal rest k with
    | some v => rfl
    | none =>
      simp only []
      rw [find?_setKey]
      by_cases hk : k = kv.1
      · subst hk
        simp
      · have hbeq : (kv.1 == k) = false := by
          simp only [beq_eq_false_iff_ne, ne_eq]
          exact fun h => hk h.symm
        rw [if_neg hk, hbeq]
        simp

theorem lookupJ_sanitizeObject_obj (kvs : List (List Char × JsonVal))
    (k : List Char) :
    lookupJ (sanitizeObject (.obj kvs)) k =
      lastVal (sanitizeEntries kvs) k := by
  show ((buildObj (sanitizeEntries kvs)).find? fun e => e.1 == k).map (·.2) =
    lastVal (sanitizeEntries kvs) k
  rw [buildObj, find?_buildObj_aux]
  cases lastVal (sanitizeEntries kvs) k with
  | some v => rfl
  | none => rfl

theorem lastVal_mem {entries : List (List Char × JsonVal)} {k : List Char}
    {v : JsonVal} (h : lastVal entries k = some v) :
    ∃ e ∈ entries, e.1 = k ∧ e.2 = v := by
  induction entries with
  | nil => cases h
  | cons kv rest ih =>
    simp only [lastVal] at h
    cases hl : lastVal rest k with
    | some v' =>
      rw [hl] at h
      cases h
      obtain ⟨e, he, h1, h2⟩ := ih hl
      exact ⟨e, List.mem_cons_of_mem kv he, h1, h2⟩
    | none =>
      rw [hl] at h
      dsimp only at h
      split at h
      · next hkv =>
        cases h
        exact ⟨kv, List.mem_cons_self kv rest, by simpa using hkv, rfl⟩
      · cases h

theorem mem_sanitizeEntries {kvs : List (List Char × JsonVal)}
    {e : List Char × JsonVal} (h : e ∈ sanitizeEntries kvs) :
    ∃ kv ∈ kvs, e = (sanitizeString kv.1, sanitizeObject kv.2) := by
  induction kvs with
  | nil => cases h
  | cons kv rest ih =>
    obtain ⟨k0, v0⟩ := kv
    simp only [sanitizeEntries] at h
    rcases List.mem_cons.mp h with rfl | h'
    · exact ⟨(k0, v0), List.mem_cons_self _ _, rfl⟩
    · obtain ⟨kv', hkv', he⟩ := ih h'
      exact ⟨kv', List.mem_cons_of_mem _ hkv', he⟩

/-- If some required field's sanitised lookup is falsy, `validateRequest`
rejects with a missing-field error naming the first such field. -/
theorem validateRequest_missing {kvs : List (List Char × JsonVal)}
    {fields : List (List Char)} {f : List Char} (hf : f ∈ fields)
    (hfalsy : truthyOpt (lookupJ (sanitizeObject (.obj kvs)) f) = false) :
    ∃ g ∈ fields, truthyOpt (lookupJ (sanitizeObject (.obj kvs)) g) = false ∧
      validateRequest (some (.obj kvs)) fields =
        .error ("Missing required field: ".data ++ g) := by
  have hexists : ∃ x ∈ fields,
      (fun f => !truthyOpt (lookupJ (sanitizeObject (.obj kvs)) f)) x = true :=
    ⟨f, hf, by simp [hfalsy]⟩
  cases hfind : fields.find?
      fun f => !truthyOpt (lookupJ (sanitizeObject (.obj kvs)) f) with
  | none =>
    rw [List.find?_eq_none] at hfind
    obtain ⟨x, hx, hpx⟩ := hexists
    exact absurd hpx (hfind x hx)
  | some g =>
    have hg : g ∈ fields := List.mem_of_find?_eq_some hfind
    have hpg := List.find?_some hfind
    refine ⟨g, hg, by simpa using hpg, ?_⟩
    show (if isNullJ (sanitizeObject (.obj kvs)) && !fields.isEmpty
        then Except.error "Invalid JSON body".data
        else match fields.find?
            (fun f => !truthyOpt (lookupJ (sanitizeObject (.obj kvs)) f)) with
          | some f => Except.error ("Missing required field: ".data ++ f)
          | none =>
            if detectSQLInjection (jsonStringify (sanitizeObject (.obj kvs))) then
              Except.error "SQL injection attempt detected".data
            else if detectXSS (jsonStringify (sanitizeObject (.obj kvs))) then
              Except.error "XSS attempt detected".data
            else Except.ok (sanitizeObject (.obj kvs))) =
      Except.error ("Missing required field: ".data ++ g)
    have hnull : (isNullJ (sanitizeObject (.obj kvs)) && !fields.isEmpty) = false := by
      rw [show isNullJ (sanitizeObject (.obj kvs)) = false from rfl]
      rfl
    rw [hnull]
    simp only [Bool.false_eq_true, if_false]
    rw [hfind]

/-- C9 counterexample: the body `{"name": "SELECT", "name<": "hello"}` has
the required field `name` bound to a string that sanitises to the empty
string, yet `validateRequest` resolves: the sanitised key `name<` collides
with `name` and overwrites it with a truthy value. -/
theorem C9_counterexample :
    (lookupJ (JsonVal.obj [("name".data, .str "SELECT".data),
        ("name<".data, .str "hello".data)]) "name".data =
      some (.str "SELECT".data)) ∧
    sanitizeString "SELECT".data = [] ∧
    ∃ v, validateRequest (some (JsonVal.obj [("name".data, .str "SELECT".data),
        ("name<".data, .str "hello".data)])) ["name".data] = .ok v ∧
      lookupJ v "name".data = some (.str "hello".data) :=
  ⟨rfl, rfl, ⟨_, rfl, rfl⟩⟩

/-- C9 (amended): a body that fails to parse is rejected with
`Invalid JSON body`; for an object body, if a required field's sanitised
lookup is falsy — in particular when every body key that sanitises to that
field name carries a value whose sanitisation is falsy, e.g. the field's
value is a string sanitising to the empty string and no other key collides
with the field name after sanitisation — then `validateRequest` rejects
with `Missing required field: <g>` for the first such required field `g`,
rather than resolving. -/
theorem C9_validateRequest_amended :
    (∀ fields, validateRequest none fields = .error "Invalid JSON body".data) ∧
    (∀ (kvs : List (List Char × JsonVal)) fields f, f ∈ fields →
      truthyOpt (lookupJ (sanitizeObject (.obj kvs)) f) = false →
      ∃ g ∈ fields, truthyOpt (lookupJ (sanitizeObject (.obj kvs)) g) = false ∧
        validateRequest (some (.obj kvs)) fields =
          .error ("Missing required field: ".data ++ g)) ∧
    (∀ (kvs : List (List Char × JsonVal)) fields f, f ∈ fields →
      (∀ kv ∈ kvs, sanitizeString kv.1 = f →
        truthy (sanitizeObject kv.2) = false) →
      ∃ g ∈ fields, validateRequest (some (.obj kvs)) fields =
        .error ("Missing required field: ".data ++ g)) := by
  refine ⟨fun _ => rfl, fun kvs fields f hf hfalsy =>
    validateRequest_missing hf hfalsy, ?_⟩
  intro kvs fields f hf hcoll
  have hfalsy : truthyOpt (lookupJ (sanitizeObject (.obj kvs)) f) = false := by
    rw [lookupJ_sanitizeObject_obj]
    cases hl : lastVal (sanitizeEntries kvs) f with
    | none => rfl
    | some v =>
      obtain ⟨e, he, he1, he2⟩ := lastVal_mem hl
      obtain ⟨kv, hkv, hekv⟩ := mem_sanitizeEntries he
      have h1 : sanitizeString kv.1 = f := by rw [hekv] at he1; exact he1
      have h2 : truthy (sanitizeObject kv.2) = false := hcoll kv hkv h1
      have h3 : v = sanitizeObject kv.2 := by rw [hekv] at he2; exact he2.symm
      simp only [truthyOpt, h3, h2]
  obtain ⟨g, hg, _, hout⟩ := validateRequest_missing hf hfalsy
  exact ⟨g, hg, hout⟩

/-- Witness for `C9_validateRequest_amended` at a concrete body. -/
theorem C9_validateRequest_amended_witness :
    ∃ g ∈ ["name".data],
      validateRequest (some (.obj [("name".data, .str "SELECT".data)]))
        ["name".data] = .error ("Missing required field: ".data ++ g) :=
  C9_validateRequest_amended.2.2 [("name".data, .str "SELECT".data)]
    ["name".data] "name".data (by decide) (by decide)

/-! ### `verifyAuth` / `requireAuth` / `requireAdmin`
(`_shared/auth.ts` lines 67-111)

The auth provider (`supabase.auth.getUser`) and the `profiles` lookup are
oracles passed as functions; a failed or missing profile row is `none`
(the code destructures `{ data: profile }` and ignores the error, so a
lookup error and a missing row behave identically).  `||` defaults apply
to each profile field separately, with JS falsiness (an empty-string role
also falls back to `'free'`). -/

structure AuthUser where
  id : String
  email : String

structure ProfileRow where
  role : Option String
  is_premium : Option Bool
  is_admin : Option Bool

structure User where
  id : String
  email : String
  role : String
  is_premium : Bool
  is_admin : Bool

/-- `authHeader.replace('Bearer ', '')`: remove the first occurrence of the
pattern (JS `String.replace` with a string argument replaces only the
first match). -/
def dropFirstOccur (pat : List Char) : List Char → List Char
  | [] => []
  | c :: cs =>
    if pat.isPrefixOf (c :: cs) then (c :: cs).drop pat.length
    else c :: dropFirstOccur pat cs

def verifyAuth (authHeader : Option (List Char))
    (getUser : List Char → Option AuthUser)
    (getProfile : String → Option ProfileRow) : Option User :=
  match authHeader with
  | none => none
  | some h =>
    let token := dropFirstOccur "Bearer ".data h
    match getUser token with
    | none => none
    | some u =>
      let profile := getProfile u.id
      some
        { id := u.id
          email := u.email
          role :=
            match profile with
            | none => "free"
            | some p =>
              match p.role with
              | none => "free"
              | some r => if r = "" then "free" else r
          is_premium :=
            match profile with
            | none => false
            | some p => p.is_premium.getD false
          is_admin :=
            match profile with
            | none => false
            | some p => p.is_admin.getD false }

def requireAuth : Option User → Except String User
  | none => .error "Authentication required"
  | some u => .ok u

def requireAdmin (user : Option User) : Except String User :=
  match requireAuth user with
  | .error e => .error e
  | .ok u =>
    if ¬ u.is_admin ∧ u.role ≠ "admin" then .error "Admin access required"
    else .ok u

/-- C10: a bearer token the auth provider accepts whose profile lookup
yields no row gives a non-null `User` with role `free`, no premium and no
admin flag; it passes `requireAuth` and is rejected by `requireAdmin`. -/
theorem C10_verifyAuth_no_profile (h : List Char)
    (getUser : List Char → Option AuthUser)
    (getProfile : String → Option ProfileRow) (u : AuthUser)
    (hu : getUser (dropFirstOccur "Bearer ".data h) = some u)
    (hp : getProfile u.id = none) :
    verifyAuth (some h) getUser getProfile =
      some { id := u.id, email := u.email, role := "free",
             is_premium := false, is_admin := false } ∧
    requireAuth (verifyAuth (some h) getUser getProfile) =
      .ok { id := u.id, email := u.email, role := "free",
            is_premium := false, is_admin := false } ∧
    requireAdmin (verifyAuth (some h) getUser getProfile) =
      .error "Admin access required" := by
  have hv : verifyAuth (some h) getUser getProfile =
      some { id := u.id, email := u.email, role := "free",
             is_premium := false, is_admin := false } := by
    simp only [verifyAuth, hu, hp]
  refine ⟨hv, by rw [hv]; rfl, ?_⟩
  rw [hv]
  simp [requireAdmin, requireAuth]

/-- Witness for `C10_verifyAuth_no_profile` at concrete oracles. -/
theorem C10_verifyAuth_no_profile_witness :
    verifyAuth (some "Bearer tok".data)
      (fun _ => some ⟨"u1", "u1@example.com"⟩) (fun _ => none) =
      some { id := "u1", email := "u1@example.com", role := "free",
             is_premium := false, is_admin := false } ∧
    requireAdmin (verifyAuth (some "Bearer tok".data)
      (fun _ => some ⟨"u1", "u1@example.com"⟩) (fun _ => none)) =
      .error "Admin access required" :=
  ⟨(C10_verifyAuth_no_profile "Bearer tok".data
      (fun _ => some ⟨"u1", "u1@example.com"⟩) (fun _ => none)
      ⟨"u1", "u1@example.com"⟩ rfl rfl).1,
   (C10_verifyAuth_no_profile "Bearer tok".data
      (fun _ => some ⟨"u1", "u1@example.com"⟩) (fun _ => none)
      ⟨"u1", "u1@example.com"⟩ rfl rfl).2.2⟩

/-! ### The `stories-publish` handler (`stories-publish/index.ts`)

Requests and the database are explicit records; every supabase call's
outcome is an oracle field (`none` models both a query error and a missing
row, exactly as the handler's `error || !data` checks treat them).  The
only statement of the handler body that can throw is `new URL(req.url)`
(modelled by `urlOk`); the throw is an `Except.error` which the outer
`catch` converts to a 500 response.  The boolean in the result records
whether the `is_published := true` update was issued. -/

/-- JS `pathname.split('/')` (single-character separator): splitting never
yields an empty list, and adjacent separators yield empty segments. -/
def splitSlash : List Char → List (List Char)
  | [] => [[]]
  | c :: cs =>
    match splitSlash cs with
    | [] => [[c]]
    | x :: xs => if c = '/' then [] :: x :: xs else (c :: x) :: xs

structure Resp where
  status : Nat
  message : String

def errResp (m : String) (s : Nat) : Resp := ⟨s, m⟩

def okResp (m : String) : Resp := ⟨200, m⟩

structure PubStory where
  id : String
  author_id : String
  title : Option String
  description : Option String
  is_published : Bool

structure PubProfile where
  role : String
  subscription_type : String

structure PubDb where
  story : Option PubStory
  chapters : Option (List String)
  profile : Option PubProfile
  publishedStories : Option (List String)
  publishOk : Bool

structure PubReq where
  method : String
  auth : Except String String
  urlOk : Bool
  pathname : List Char

/-- `!story.title || story.title.length < 3` (an empty title is both falsy
and shorter than 3). -/
def titleBad (t : Option String) : Bool :=
  match t with
  | none => true
  | some s => s.length < 3

/-- `!story.description || story.description.length < 10`. -/
def descBad (d : Option String) : Bool :=
  match d with
  | none => true
  | some s => s.length < 10

def doPublish (db : PubDb) : Resp × Bool :=
  if db.publishOk then (okResp "Story published successfully", true)
  else (errResp "Failed to publish story" 500, true)

def storiesPublishTry (req : PubReq) (db : PubDb) : Except String (Resp × Bool) :=
  if req.method ≠ "POST" then .ok (errResp "Method not allowed" 405, false)
  else match req.auth with
  | .error e => .ok (errResp e 401, false)
  | .ok userId =>
    if req.urlOk = false then .error "Invalid URL"
    else
    let storyId := (splitSlash req.pathname).getLastD []
    if storyId = [] then .ok (errResp "Story ID is required" 400, false)
    else match db.story with
    | none => .ok (errResp "Story not found" 404, false)
    | some story =>
      if story.author_id ≠ userId then
        .ok (errResp "Unauthorized: You can only publish your own stories" 403, false)
      else if story.is_published then
        .ok (errResp "Story is already published" 400, false)
      else if titleBad story.title then
        .ok (errResp "Story must have a title of at least 3 characters to publish" 400,
          false)
      else if descBad story.description then
        .ok (errResp
          "Story must have a description of at least 10 characters to publish" 400,
          false)
      else match db.chapters with
      | none =>
        .ok (errResp "Story must have at least one chapter to publish" 400, false)
      | some [] =>
        .ok (errResp "Story must have at least one chapter to publish" 400, false)
      | some (_ :: _) =>
        match db.profile with
        | none => .ok (errResp "User profile not found" 404, false)
        | some profile =>
          if profile.subscription_type = "free" then
            match db.publishedStories with
            | none => .ok (errResp "Failed to check publishing limits" 500, false)
            | some pubs =>
              if 5 ≤ pubs.length then
                .ok (errResp
                  "Free users can only publish 5 stories. Upgrade to premium for unlimited publishing."
                  403, false)
              else .ok (doPublish db)
          else .ok (doPublish db)

def storiesPublish (req : PubReq) (db : PubDb) : Resp × Bool :=
  if req.method = "OPTIONS" then (⟨200, "ok"⟩, false)
  else match storiesPublishTry req db with
  | .ok out => out
  | .error m => (errResp (if m = "" then "Internal server error" else m) 500, false)

/-! ### The `stories-chapters` handler (`stories-chapters/index.ts`) -/

structure ChapterRow where
  id : String
  story_id : List Char
  title : List Char
  chapter_number : Int

structure ChBody where
  title : Option (List Char)
  content : Option (List Char)
  file_url : Option (List Char)
  file_type : Option String
  chapter_number : Option Int

structure ChReq where
  method : String
  pathname : List Char
  auth : Except String String
  urlOk : Bool
  json : Option ChBody

structure ChDb where
  table : List ChapterRow
  getOk : Bool
  story : Option (String × String)
  insertOk : Bool
  updateOk : Bool
  deleteOk : Bool

structure InsertRec where
  story_id : List Char
  title : List Char
  chapter_number : Int

structure ChOut where
  resp : Resp
  chapters : List ChapterRow
  inserted : Option InsertRec

def chapterLe (a b : ChapterRow) : Prop := a.chapter_number ≤ b.chapter_number

instance : DecidableRel chapterLe := fun a b => by
  unfold chapterLe; infer_instance

instance : IsTrans ChapterRow chapterLe :=
  ⟨fun _ _ _ hab hbc => le_trans hab hbc⟩

instance : IsTotal ChapterRow chapterLe :=
  ⟨fun a b => le_total a.chapter_number b.chapter_number⟩

/-- The DB's `order('chapter_number', { ascending: true })` on the rows of
one story. -/
def sortChapters (l : List ChapterRow) : List ChapterRow :=
  List.insertionSort chapterLe l

/-- `(lastChapter?.chapter_number || 0)`: the greatest `chapter_number` of
the story's rows (`order desc limit 1 single`), or `0` when there are none
(a greatest value of `0` is also defaulted to `0` by `||`, which is the
same number). -/
def maxChap (l : List ChapterRow) : Int :=
  match l.map (fun c => c.chapter_number) with
  | [] => 0
  | x :: xs => xs.foldl max x

/-- `!title || title.length < 3`. -/
def chTitleBad (t : Option (List Char)) : Bool :=
  match t with
  | none => true
  | some s => s.length < 3

/-- JS truthiness of an optional string field. -/
def truthyS (t : Option (List Char)) : Bool :=
  match t with
  | none => false
  | some s => !s.isEmpty

def truthyFT (t : Option String) : Bool :=
  match t with
  | none => false
  | some s => !(s = "")

def chIdFalsy (c : Option (List Char)) : Bool :=
  match c with
  | none => true
  | some s => s.isEmpty

/-- `pathParts[pathParts.length - 2]`, i.e. the story id of the route
`/stories/{id}/chapters` (an out-of-range index is `undefined`, which is
falsy like the empty string). -/
def chStoryId (pathname : List Char) : List Char :=
  let parts := splitSlash pathname
  if 2 ≤ parts.length then parts.getD (parts.length - 2) [] else []

/-- The last path part when it is not the literal `chapters`. -/
def chChapterId (pathname : List Char) : Option (List Char) :=
  let lastPart := (splitSlash pathname).getLastD []
  if lastPart ≠ "chapters".data then some lastPart else none

def storiesChaptersBody (req : ChReq) (db : ChDb) : Except String ChOut :=
  let storyId := chStoryId req.pathname
  let chapterId := chChapterId req.pathname
  if storyId = [] then .ok ⟨errResp "Story ID is required" 400, [], none⟩
  else if req.method = "GET" then
    if db.getOk = false then .ok ⟨errResp "Failed to fetch chapters" 500, [], none⟩
    else .ok ⟨okResp "chapters",
      sortChapters (db.table.filter fun c => c.story_id == storyId), none⟩
  else if req.method = "POST" then
    match req.auth with
    | .error e => .ok ⟨errResp e 401, [], none⟩
    | .ok userId =>
      match db.story with
      | none => .ok ⟨errResp "Story not found" 404, [], none⟩
      | some st =>
        if st.2 ≠ userId then
          .ok ⟨errResp "Unauthorized: You can only add chapters to your own stories"
            403, [], none⟩
        else match req.json with
        | none => .error "Invalid JSON"
        | some body =>
          if chTitleBad body.title then
            .ok ⟨errResp "Chapter title must be at least 3 characters" 400, [], none⟩
          else if truthyS body.content = false ∧ truthyS body.file_url = false then
            .ok ⟨errResp "Chapter must have either content or file_url" 400, [], none⟩
          else
            let auto := maxChap (db.table.filter fun c => c.story_id == storyId) + 1
            let nextNum :=
              match body.chapter_number with
              | some n => if n ≠ 0 then n else auto
              | none => auto
            if db.insertOk then
              .ok ⟨okResp "Chapter created successfully", [],
                some ⟨storyId, sanitizeString (body.title.getD []), nextNum⟩⟩
            else .ok ⟨errResp "Failed to create chapter" 500, [], none⟩
  else if req.method = "PUT" then
    if chIdFalsy chapterId then
      .ok ⟨errResp "Chapter ID is required for updates" 400, [], none⟩
    else match req.auth with
    | .error e => .ok ⟨errResp e 401, [], none⟩
    | .ok userId =>
      match db.story with
      | none => .ok ⟨errResp "Story not found" 404, [], none⟩
      | some st =>
        if st.2 ≠ userId then
          .ok ⟨errResp
            "Unauthorized: You can only update chapters in your own stories" 403,
            [], none⟩
        else match req.json with
        | none => .error "Invalid JSON"
        | some body =>
          if truthyS body.title ∧ (body.title.getD []).length < 3 then
            .ok ⟨errResp "Chapter title must be at least 3 characters" 400, [], none⟩
          else if truthyS body.title = false ∧ body.content = none ∧
              body.file_url = none ∧ truthyFT body.file_type = false then
            .ok ⟨errResp "No valid fields to update" 400, [], none⟩
          else if db.updateOk then
            .ok ⟨okResp "Chapter updated successfully", [], none⟩
          else .ok ⟨errResp "Failed to update chapter" 500, [], none⟩
  else if req.method = "DELETE" then
    if chIdFalsy chapterId then
      .ok ⟨errResp "Chapter ID is required for deletion" 400, [], none⟩
    else match req.auth with
    | .error e => .ok ⟨errResp e 401, [], none⟩
    | .ok userId =>
      match db.story with
      | none => .ok ⟨errResp "Story not found" 404, [], none⟩
      | some st =>
        if st.2 ≠ userId then
          .ok ⟨errResp
            "Unauthorized: You can only delete chapters from your own stories" 403,
            [], none⟩
        else if db.deleteOk then
          .ok ⟨okResp "Chapter deleted successfully", [], none⟩
        else .ok ⟨errResp "Failed to delete chapter" 500, [], none⟩
  else .ok ⟨errResp "Method not allowed" 405, [], none⟩

def storiesChaptersTry (req : ChReq) (db : ChDb) : Except String ChOut :=
  if req.urlOk = false then .error "Invalid URL"
  else storiesChaptersBody req db

def storiesChapters (req : ChReq) (db : ChDb) : ChOut :=
  if req.method = "OPTIONS" then ⟨⟨200, "ok"⟩, [], none⟩
  else match storiesChaptersTry req db with
  | .ok out => out
  | .error m => ⟨errResp (if m = "" then "Internal server error" else m) 500, [], none⟩

def allowedStatuses : List Nat := [200, 400, 401, 403, 404, 405, 500]

def errorStatuses : List Nat := [400, 401, 403, 404, 405, 500]

theorem storiesPublishTry_status {req : PubReq} {db : PubDb}
    {out : Resp × Bool} (h : storiesPublishTry req db = .ok out) :
    (out.1.status = 200 ∨ out.1.status ∈ errorStatuses) := by
  simp only [storiesPublishTry, doPublish, Bool.not_eq_true] at h
  repeat' split at h
  all_goals first
  | (cases h; simp [errResp, okResp, errorStatuses])
  | cases h

theorem storiesChaptersTry_status {req : ChReq} {db : ChDb}
    {out : ChOut} (h : storiesChaptersTry req db = .ok out) :
    (out.resp.status = 200 ∨ out.resp.status ∈ errorStatuses) := by
  unfold storiesChaptersTry at h
  split at h
  · cases h
  · simp only [storiesChaptersBody] at h
    repeat' split at h
    all_goals first
    | (cases h; simp [errResp, okResp, errorStatuses])
    | cases h

/-- C4: both modelled handlers total out every non-`OPTIONS` request to a
`Response` whose status is one of 200/400/401/403/404/405/500 (error
responses use only the latter six), and any exception escaping the body is
converted by the outer catch into a 500 JSON error response. -/
theorem C4_handler_responses :
    (∀ req db, (storiesPublish req db).1.status ∈ allowedStatuses ∧
      ((storiesPublish req db).1.status ≠ 200 →
        (storiesPublish req db).1.status ∈ errorStatuses)) ∧
    (∀ req db, (storiesChapters req db).resp.status ∈ allowedStatuses ∧
      ((storiesChapters req db).resp.status ≠ 200 →
        (storiesChapters req db).resp.status ∈ errorStatuses)) ∧
    (∀ req db m, req.method ≠ "OPTIONS" → storiesPublishTry req db = .error m →
      storiesPublish req db =
        (errResp (if m = "" then "Internal server error" else m) 500, false)) ∧
    (∀ req db m, req.method ≠ "OPTIONS" → storiesChaptersTry req db = .error m →
      storiesChapters req db =
        ⟨errResp (if m = "" then "Internal server error" else m) 500, [], none⟩) := by
  refine ⟨?_, ?_, ?_, ?_⟩
  · intro req db
    unfold storiesPublish
    split
    · exact ⟨by decide, fun h => absurd rfl h⟩
    · cases h : storiesPublishTry req db with
      | error m =>
        constructor
        · simp [errResp, allowedStatuses]
        · intro _; simp [errResp, errorStatuses]
      | ok out =>
        rcases storiesPublishTry_status h with h200 | herr
        · exact ⟨by rw [h200]; decide, fun hne => absurd h200 hne⟩
        · constructor
          · simp only [allowedStatuses, errorStatuses] at herr ⊢
            simp only [List.mem_cons] at herr ⊢
            tauto
          · intro _; exact herr
  · intro req db
    unfold storiesChapters
    split
    · exact ⟨by decide, fun h => absurd rfl h⟩
    · cases h : storiesChaptersTry req db with
      | error m =>
        constructor
        · simp [errResp, allowedStatuses]
        · intro _; simp [errResp, errorStatuses]
      | ok out =>
        rcases storiesChaptersTry_status h with h200 | herr
        · exact ⟨by rw [h200]; decide, fun hne => absurd h200 hne⟩
        · constructor
          · simp only [allowedStatuses, errorStatuses] at herr ⊢
            simp only [List.mem_cons] at herr ⊢
            tauto
          · intro _; exact herr
  · intro req db m hopt herr
    unfold storiesPublish
    rw [if_neg hopt, herr]
  · intro req db m hopt herr
    unfold storiesChapters
    rw [if_neg hopt, herr]

set_option maxHeartbeats 1600000 in
/-- C5: for a publish request by the authenticated owner of an existing
unpublished story, failing any of the three eligibility checks (title
missing/short, description missing/short, no chapters) yields status 400
and the publish update is not issued; conversely the update is issued only
when all three checks pass. -/
theorem C5_publish_eligibility (req : PubReq) (db : PubDb) :
    (∀ (userId : String) (story : PubStory),
      req.method = "POST" → req.auth = .ok userId → req.urlOk = true →
      ¬ (splitSlash req.pathname).getLastD [] = [] →
      db.story = some story → story.author_id = userId →
      story.is_published = false →
      (titleBad story.title = true ∨ descBad story.description = true ∨
        db.chapters = none ∨ db.chapters = some []) →
      (storiesPublish req db).1.status = 400 ∧
        (storiesPublish req db).2 = false) ∧
    ((storiesPublish req db).2 = true →
      (∀ st, db.story = some st → st.is_published = false ∧
        titleBad st.title = false ∧ descBad st.description = false) ∧
      db.chapters ≠ none ∧ db.chapters ≠ some []) := by
  constructor
  · intro userId story hm hauth hurl hsid hstory howner hpub hbad
    rw [List.getLastD_eq_getLast?] at hsid
    simp only [storiesPublish, storiesPublishTry, hm, hauth, hurl, hstory,
      howner, hpub]
    rcases hbad with hb | hb | hb | hb
    · simp [hsid, hb, errResp]
    · by_cases ht : titleBad story.title = true <;> simp [hsid, hb, ht, errResp]
    · by_cases ht : titleBad story.title = true <;>
        by_cases hd : descBad story.description = true <;>
        simp [hsid, hb, ht, hd, errResp]
    · by_cases ht : titleBad story.title = true <;>
        by_cases hd : descBad story.description = true <;>
        simp [hsid, hb, ht, hd, errResp]
  · intro h
    unfold storiesPublish at h
    split at h
    · simp at h
    · cases htry : storiesPublishTry req db with
      | error m => rw [htry] at h; simp at h
      | ok out =>
        rw [htry] at h
        simp only [storiesPublishTry, doPublish] at htry
        repeat' split at htry
        all_goals cases htry
        all_goals simp_all

/-- Witness for `C5_publish_eligibility` at a concrete request. -/
theorem C5_publish_eligibility_witness :
    (storiesPublish
      ⟨"POST", .ok "u1", true, "/stories/s1".data⟩
      ⟨some ⟨"s1", "u1", some "ab", some "long description!", false⟩,
        some ["c1"], some ⟨"free", "free"⟩, some [], true⟩).1.status = 400 ∧
    (storiesPublish
      ⟨"POST", .ok "u1", true, "/stories/s1".data⟩
      ⟨some ⟨"s1", "u1", some "ab", some "long description!", false⟩,
        some ["c1"], some ⟨"free", "free"⟩, some [], true⟩).2 = false :=
  (C5_publish_eligibility ⟨"POST", .ok "u1", true, "/stories/s1".data⟩
      ⟨some ⟨"s1", "u1", some "ab", some "long description!", false⟩,
        some ["c1"], some ⟨"free", "free"⟩, some [], true⟩).1
    "u1" ⟨"s1", "u1", some "ab", some "long description!", false⟩
    rfl rfl rfl (by decide) rfl rfl rfl (Or.inl (by decide))

set_option maxHeartbeats 1600000 in
/-- C6: for an eligible publish request by the owner whose profile has
subscription type "free", 5 or more already-published stories yields 403
and no publish update; a free user whose publish update is issued has
fewer than 5 published stories; a non-free owner is not subject to the
count check and the update is issued regardless of the published count. -/
theorem C6_free_publish_limit (req : PubReq) (db : PubDb) :
    (∀ (userId : String) (story : PubStory) (profile : PubProfile)
        (pubs : List String),
      req.method = "POST" → req.auth = Except.ok userId → req.urlOk = true →
      ¬ (splitSlash req.pathname).getLastD [] = [] →
      db.story = some story → story.author_id = userId →
      story.is_published = false → titleBad story.title = false →
      descBad story.description = false →
      (∃ c cs, db.chapters = some (c :: cs)) →
      db.profile = some profile → profile.subscription_type = "free" →
      db.publishedStories = some pubs → 5 ≤ pubs.length →
      (storiesPublish req db).1.status = 403 ∧
        (storiesPublish req db).2 = false) ∧
    (∀ (profile : PubProfile),
      db.profile = some profile → profile.subscription_type = "free" →
      (storiesPublish req db).2 = true →
      ∀ pubs, db.publishedStories = some pubs → pubs.length < 5) ∧
    (∀ (userId : String) (story : PubStory) (profile : PubProfile),
      req.method = "POST" → req.auth = Except.ok userId → req.urlOk = true →
      ¬ (splitSlash req.pathname).getLastD [] = [] →
      db.story = some story → story.author_id = userId →
      story.is_published = false → titleBad story.title = false →
      descBad story.description = false →
      (∃ c cs, db.chapters = some (c :: cs)) →
      db.profile = some profile → profile.subscription_type ≠ "free" →
      storiesPublish req db = doPublish db) := by
  refine ⟨?_, ?_, ?_⟩
  · intro userId story profile pubs hm hauth hurl hsid hstory howner hpub ht hd
      hch hprof hfree hpubs hge
    obtain ⟨c, cs, hch⟩ := hch
    rw [List.getLastD_eq_getLast?] at hsid
    simp [storiesPublish, storiesPublishTry, hm, hauth, hurl, hsid, hstory,
      howner, hpub, ht, hd, hch, hprof, hfree, hpubs, hge, errResp]
  · intro profile hprof hfree h
    unfold storiesPublish at h
    split at h
    · simp at h
    · cases htry : storiesPublishTry req db with
      | error m => rw [htry] at h; simp at h
      | ok out =>
        rw [htry] at h
        simp only [storiesPublishTry, doPublish] at htry
        repeat' split at htry
        all_goals cases htry
        all_goals simp_all
  · intro userId story profile hm hauth hurl hsid hstory howner hpub ht hd
      hch hprof hnf
    obtain ⟨c, cs, hch⟩ := hch
    rw [List.getLastD_eq_getLast?] at hsid
    simp [storiesPublish, storiesPublishTry, hm, hauth, hurl, hsid, hstory,
      howner, hpub, ht, hd, hch, hprof, hnf]

/-- Witness for `C6_free_publish_limit` at a concrete request. -/
theorem C6_free_publish_limit_witness :
    (storiesPublish
      ⟨"POST", .ok "u1", true, "/stories/s1".data⟩
      ⟨some ⟨"s1", "u1", some "abc", some "long description!", false⟩,
        some ["c1"], some ⟨"free", "free"⟩,
        some ["p1", "p2", "p3", "p4", "p5"], true⟩).1.status = 403 ∧
    (storiesPublish
      ⟨"POST", .ok "u1", true, "/stories/s1".data⟩
      ⟨some ⟨"s1", "u1", some "abc", some "long description!", false⟩,
        some ["c1"], some ⟨"free", "free"⟩,
        some ["p1", "p2", "p3", "p4", "p5"], true⟩).2 = false :=
  (C6_free_publish_limit ⟨"POST", .ok "u1", true, "/stories/s1".data⟩
      ⟨some ⟨"s1", "u1", some "abc", some "long description!", false⟩,
        some ["c1"], some ⟨"free", "free"⟩,
        some ["p1", "p2", "p3", "p4", "p5"], true⟩).1
    "u1" ⟨"s1", "u1", some "abc", some "long description!", false⟩
    ⟨"free", "free"⟩ ["p1", "p2", "p3", "p4", "p5"]
    rfl rfl rfl (by decide) rfl rfl rfl (by decide) (by decide)
    ⟨"c1", [], rfl⟩ rfl rfl rfl (by decide)

/-- C7: a GET of a story yields status 200 with the story rows sorted in
ascending chapter number (a sorted permutation of the story filter of the
table); a POST that omits chapter number inserts with number equal to the
story greatest existing chapter number plus one; when the story has no
rows, that number is 1. -/
theorem C7_chapter_ordering (req : ChReq) (db : ChDb) :
    (req.method = "GET" → req.urlOk = true →
      chStoryId req.pathname ≠ [] → db.getOk = true →
      (storiesChapters req db).resp.status = 200 ∧
      List.Sorted chapterLe (storiesChapters req db).chapters ∧
      List.Perm (storiesChapters req db).chapters
        (db.table.filter fun c => c.story_id == chStoryId req.pathname)) ∧
    (∀ (userId : String) (st : String × String) (body : ChBody),
      req.method = "POST" → req.urlOk = true →
      chStoryId req.pathname ≠ [] → req.auth = Except.ok userId →
      db.story = some st → st.2 = userId → req.json = some body →
      chTitleBad body.title = false →
      ¬ (truthyS body.content = false ∧ truthyS body.file_url = false) →
      body.chapter_number = none → db.insertOk = true →
      (storiesChapters req db).inserted =
        some ⟨chStoryId req.pathname, sanitizeString (body.title.getD []),
          maxChap (db.table.filter fun c => c.story_id == chStoryId req.pathname)
            + 1⟩) ∧
    (∀ (userId : String) (st : String × String) (body : ChBody),
      req.method = "POST" → req.urlOk = true →
      chStoryId req.pathname ≠ [] → req.auth = Except.ok userId →
      db.story = some st → st.2 = userId → req.json = some body →
      chTitleBad body.title = false →
      ¬ (truthyS body.content = false ∧ truthyS body.file_url = false) →
      body.chapter_number = none → db.insertOk = true →
      (db.table.filter fun c => c.story_id == chStoryId req.pathname) = [] →
      (storiesChapters req db).inserted =
        some ⟨chStoryId req.pathname, sanitizeString (body.title.getD []), 1⟩) := by
  refine ⟨?_, ?_, ?_⟩
  · intro hm hurl hsid hget
    simp only [storiesChapters, storiesChaptersTry, storiesChaptersBody, hm,
      hurl, hget]
    simp only [hsid, if_false, String.reduceEq, reduceCtorEq, ite_false,
      Bool.true_eq_false, if_neg, not_false_eq_true, ite_true, if_true]
    refine ⟨by simp [okResp], ?_, ?_⟩
    · simp only [sortChapters]
      exact List.sorted_insertionSort chapterLe _
    · simp only [sortChapters]
      exact List.perm_insertionSort chapterLe _
  · intro userId st body hm hurl hsid hauth hstory howner hjson ht hcf hnum hins
    simp [storiesChapters, storiesChaptersTry, storiesChaptersBody, hm, hurl,
      hsid, hauth, hstory, howner, hjson, ht, hcf, hnum, hins]
  · intro userId st body hm hurl hsid hauth hstory howner hjson ht hcf hnum hins
      hfil
    simp [storiesChapters, storiesChaptersTry, storiesChaptersBody, hm, hurl,
      hsid, hauth, hstory, howner, hjson, ht, hcf, hnum, hins, hfil, maxChap]

/-- Witness for `C7_chapter_ordering` at a concrete POST request. -/
theorem C7_chapter_ordering_witness :
    (storiesChapters
      ⟨"POST", "/stories/s1/chapters".data, .ok "u1", true,
        some ⟨some "Chapter One".data, some "text".data, none, none, none⟩⟩
      ⟨[], true, some ("s1", "u1"), true, true, true⟩).inserted =
      some ⟨chStoryId "/stories/s1/chapters".data,
        sanitizeString "Chapter One".data, 1⟩ :=
  (C7_chapter_ordering
      ⟨"POST", "/stories/s1/chapters".data, .ok "u1", true,
        some ⟨some "Chapter One".data, some "text".data, none, none, none⟩⟩
      ⟨[], true, some ("s1", "u1"), true, true, true⟩).2.2
    "u1" ("s1", "u1")
    ⟨some "Chapter One".data, some "text".data, none, none, none⟩
    rfl rfl (by decide) rfl rfl rfl rfl (by decide) (by decide) rfl rfl rfl

/-- Witness for `C4_handler_responses` at concrete requests. -/
theorem C4_handler_responses_witness :
    (storiesPublish ⟨"GET", .ok "u", true, "/stories/s1".data⟩
      ⟨none, none, none, none, true⟩).1.status ∈ errorStatuses ∧
    (storiesChapters ⟨"PATCH", "/stories/s1/chapters".data, .ok "u", true, none⟩
      ⟨[], true, none, true, true, true⟩).resp.status ∈ errorStatuses ∧
    storiesPublish ⟨"POST", .ok "u", false, "/stories/s1".data⟩
        ⟨none, none, none, none, true⟩ =
      (errResp (if "Invalid URL" = "" then "Internal server error"
        else "Invalid URL") 500, false) ∧
    storiesChapters ⟨"GET", "/stories/s1/chapters".data, .ok "u", false, none⟩
        ⟨[], true, none, true, true, true⟩ =
      ⟨errResp (if "Invalid URL" = "" then "Internal server error"
        else "Invalid URL") 500, [], none⟩ :=
  ⟨(C4_handler_responses.1 ⟨"GET", .ok "u", true, "/stories/s1".data⟩
      ⟨none, none, none, none, true⟩).2 (by decide),
   (C4_handler_responses.2.1
      ⟨"PATCH", "/stories/s1/chapters".data, .ok "u", true, none⟩
      ⟨[], true, none, true, true, true⟩).2 (by decide),
   C4_handler_responses.2.2.1 ⟨"POST", .ok "u", false, "/stories/s1".data⟩
      ⟨none, none, none, none, true⟩ "Invalid URL" (by decide) rfl,
   C4_handler_responses.2.2.2
      ⟨"GET", "/stories/s1/chapters".data, .ok "u", false, none⟩
      ⟨[], true, none, true, true, true⟩ "Invalid URL" (by decide) rfl⟩

end Hekayaty
